import Mathlib

/-!
# Rocketpool node distribution map: the reconciliation engine and the fetcher

A shallow embedding of `src/main.js`.

* `V8`: `Array.prototype.sort` as the JavaScript engine of Node.js runs it
  (TimSort, `builtins/array-sort.tq`), over lists. `main.js` hands it a
  comparator that never answers `0`, so the ECMAScript text leaves the order
  to the engine and the engine's algorithm has to be followed step by step.
  The work array and the indices into it become lists: a run is the list of its
  elements, the stack of pending runs a list of runs. A loop is a function with
  a fuel argument, and every caller passes a bound on the rounds the loop can
  make. The guard of `offset = (offset << 1) + 1` against the overflow of a small
  integer is left out.
* `compileData`: lines 146-198.
* `rateLimitCalls`, `fetchUrl`: lines 16-49, as a state machine over the list
  `calls`, the clock and the responses of the network.
-/

namespace RocketpoolMap


namespace V8

variable {α : Type}

/-- `kMinGallopWins`: the number of wins in a row that switches a merge to galloping. -/
def kMinGallopWins : Nat := 7

/-- The loop of `ComputeMinRunLength`: `while (n >= 64) { r |= n & 1; n >>= 1 }`. -/
def computeMinRunLengthLoop : Nat → Nat → Nat → Nat
  | 0, n, r => n + r
  | fuel + 1, n, r =>
    if 64 ≤ n then computeMinRunLengthLoop fuel (n >>> 1) (r ||| (n &&& 1)) else n + r

/-- `ComputeMinRunLength(n)`. -/
def computeMinRunLength (n : Nat) : Nat := computeMinRunLengthLoop n n 0

/-- The loop of `CountAndMakeRun` after the first two elements: how many more
elements extend the run that ends in `prev`. `order = Compare(current, previous)`;
a descending run stops at `order >= 0`, an ascending one at `order < 0`. -/
def countRun (cmp : α → α → Int) (isDescending : Bool) : α → List α → Nat
  | _, [] => 0
  | prev, cur :: rest =>
    if isDescending then
      if 0 ≤ cmp cur prev then 0 else countRun cmp isDescending cur rest + 1
    else
      if cmp cur prev < 0 then 0 else countRun cmp isDescending cur rest + 1

/-- `CountAndMakeRun(low, high)` on the part `xs` of the work array that starts at
`low`: the length of the run at its head, and `xs` with that run reversed when it
was descending. -/
def countAndMakeRun (cmp : α → α → Int) : List α → Nat × List α
  | [] => (0, [])
  | [x] => (1, [x])
  | x0 :: x1 :: rest =>
    let isDescending : Bool := cmp x1 x0 < 0
    let runLength := countRun cmp isDescending x1 rest + 2
    if isDescending then
      (runLength, ((x0 :: x1 :: rest).take runLength).reverse ++ (x0 :: x1 :: rest).drop runLength)
    else
      (runLength, x0 :: x1 :: rest)

/-- Reads `array[i]` and tests it; `false` outside the array (no caller reads there). -/
def testAt (p : α → Bool) (a : List α) (i : Nat) : Bool :=
  match a[i]? with
  | some x => p x
  | none => false

/-- The binary search that ends `GallopLeft`, `GallopRight` and each round of
`BinaryInsertionSort`: `while (lastOfs < offset) { m = lastOfs + ((offset - lastOfs) >> 1);
if (array[m] is before the key) lastOfs = m + 1 else offset = m }`. -/
def bisect (p : α → Bool) (a : List α) : Nat → Nat → Nat → Nat
  | 0, _, offset => offset
  | fuel + 1, lastOfs, offset =>
    if lastOfs < offset then
      let m := lastOfs + ((offset - lastOfs) >>> 1)
      if testAt p a m then bisect p a fuel (m + 1) offset else bisect p a fuel lastOfs m
    else offset

/-- The loop that gallops right from `hint`: `while (offset < maxOfs)`, stop at the
first `array[hint + offset]` that is not before the key, else
`lastOfs = offset; offset = (offset << 1) + 1`. -/
def gallopUp (p : α → Bool) (a : List α) (hint maxOfs : Nat) : Nat → Nat → Nat → Nat × Nat
  | 0, lastOfs, offset => (lastOfs, offset)
  | fuel + 1, lastOfs, offset =>
    if offset < maxOfs then
      if testAt p a (hint + offset) then gallopUp p a hint maxOfs fuel offset ((offset <<< 1) + 1)
      else (lastOfs, offset)
    else (lastOfs, offset)

/-- The loop that gallops left from `hint`: `while (offset < maxOfs)`, stop at the
first `array[hint - offset]` that is before the key, else
`lastOfs = offset; offset = (offset << 1) + 1`. -/
def gallopDown (p : α → Bool) (a : List α) (hint maxOfs : Nat) : Nat → Nat → Nat → Nat × Nat
  | 0, lastOfs, offset => (lastOfs, offset)
  | fuel + 1, lastOfs, offset =>
    if offset < maxOfs then
      if testAt p a (hint - offset) then (lastOfs, offset)
      else gallopDown p a hint maxOfs fuel offset ((offset <<< 1) + 1)
    else (lastOfs, offset)

/-- The body shared by `GallopLeft` and `GallopRight` over the sorted run `a`
(`array[base .. base + length)`), `p x` saying that `x` stands before the key.
The two builtins differ only in the test: `Compare(x, key) < 0` for `GallopLeft`,
`!(Compare(key, x) < 0)` for `GallopRight`. -/
def gallop (p : α → Bool) (a : List α) (hint : Nat) : Nat :=
  if testAt p a hint then
    let maxOfs := a.length - hint
    let r := gallopUp p a hint maxOfs maxOfs 0 1
    let offset := if maxOfs < r.2 then maxOfs else r.2
    bisect p a a.length (r.1 + hint + 1) (offset + hint)
  else
    let maxOfs := hint + 1
    let r := gallopDown p a hint maxOfs maxOfs 0 1
    let offset := if maxOfs < r.2 then maxOfs else r.2
    bisect p a a.length (hint + 1 - offset) (hint - r.1)

/-- `GallopLeft(array, key, base, length, hint)`: the offset before the leftmost
element that `Compare` does not put before `key`. -/
def gallopLeft (cmp : α → α → Int) (key : α) (a : List α) (hint : Nat) : Nat :=
  gallop (fun x => decide (cmp x key < 0)) a hint

/-- `GallopRight(array, key, base, length, hint)`: the offset after the rightmost
element that `Compare` does not put after `key`. -/
def gallopRight (cmp : α → α → Int) (key : α) (a : List α) (hint : Nat) : Nat :=
  gallop (fun x => !decide (cmp key x < 0)) a hint

/-- `BinaryInsertionSort(low, start, high)`: `run` is the sorted part
`[low, start)`, `todo` the elements `[start, high)`. Each pivot is placed by the
search `order = Compare(pivot, array[mid]); if (order < 0) right = mid else left = mid + 1`
and the elements from `left` on slide one place up. -/
def binaryInsertionSort (cmp : α → α → Int) : List α → List α → List α
  | run, [] => run
  | run, pivot :: todo =>
    let left := bisect (fun x => !decide (cmp pivot x < 0)) run run.length 0 run.length
    binaryInsertionSort cmp (run.take left ++ pivot :: run.drop left) todo

/-- The two loops of `MergeLow` after its first copy. `a` is what is left of the
temp array (run A, from `cursorTemp`), `b` what is left of run B in the work array
(from `cursorB`), `out` the merged elements written so far (`[baseA, dest)`).
`galloping = false` is the inner loop that takes one element at a time,
`galloping = true` the loop `while (nofWinsA >= kMinGallopWins || nofWinsB >=
kMinGallopWins || firstIteration)`. Returns the merged run and `sortState.minGallop`.
The labels: `Succeed` copies what is left of the temp array behind `out` (what is
left of B already stands behind it), `CopyB` moves the rest of B down and puts the
last element of A behind it. -/
def mergeLowLoop (cmp : α → α → Int) :
    Nat → Bool → Bool → List α → List α → List α → Nat → Nat → Nat → List α × Nat
  | 0, _, _, out, a, b, minGallop, _, _ => (out ++ a ++ b, minGallop)
  | fuel + 1, false, _, out, a, b, minGallop, nofWinsA, nofWinsB =>
    match a, b with
    | x :: a1, y :: b1 =>
      if cmp y x < 0 then
        if b1.length = 0 then (out ++ [y] ++ (x :: a1), minGallop)
        else if minGallop ≤ nofWinsB + 1 then
          mergeLowLoop cmp fuel true true (out ++ [y]) (x :: a1) b1 (minGallop + 1) 0 (nofWinsB + 1)
        else
          mergeLowLoop cmp fuel false false (out ++ [y]) (x :: a1) b1 minGallop 0 (nofWinsB + 1)
      else
        if a1.length = 1 then (out ++ [x] ++ (y :: b1) ++ a1, minGallop)
        else if minGallop ≤ nofWinsA + 1 then
          mergeLowLoop cmp fuel true true (out ++ [x]) a1 (y :: b1) (minGallop + 1) (nofWinsA + 1) 0
        else
          mergeLowLoop cmp fuel false false (out ++ [x]) a1 (y :: b1) minGallop (nofWinsA + 1) 0
    | _, _ => (out ++ a ++ b, minGallop)
  | fuel + 1, true, firstIteration, out, a, b, minGallop, nofWinsA, nofWinsB =>
    if kMinGallopWins ≤ nofWinsA ∨ kMinGallopWins ≤ nofWinsB ∨ firstIteration = true then
      let minGallop := max 1 (minGallop - 1)
      match b with
      | [] => (out ++ a, minGallop)
      | y :: b1 =>
        let nofWinsA := gallopRight cmp y a 0
        let out1 := out ++ a.take nofWinsA
        let a1 := a.drop nofWinsA
        if 0 < nofWinsA ∧ a1.length = 1 then (out1 ++ (y :: b1) ++ a1, minGallop)
        else if 0 < nofWinsA ∧ a1.length = 0 then (out1 ++ (y :: b1), minGallop)
        else if b1.length = 0 then (out1 ++ [y] ++ a1, minGallop)
        else
          match a1 with
          | [] => (out1 ++ [y] ++ b1, minGallop)
          | x :: a2 =>
            let nofWinsB := gallopLeft cmp x b1 0
            let out2 := out1 ++ [y] ++ b1.take nofWinsB
            let b2 := b1.drop nofWinsB
            if 0 < nofWinsB ∧ b2.length = 0 then (out2 ++ (x :: a2), minGallop)
            else if a2.length = 1 then (out2 ++ [x] ++ b2 ++ a2, minGallop)
            else mergeLowLoop cmp fuel true false (out2 ++ [x]) a2 b2 minGallop nofWinsA nofWinsB
    else mergeLowLoop cmp fuel false false out a b (minGallop + 1) 0 0

/-- `MergeLow(baseA, lengthA, baseB, lengthB)`: run A is copied to the temp array,
the first element of B goes to the front, then the loops merge from the left. -/
def mergeLow (cmp : α → α → Int) (a b : List α) (minGallop : Nat) : List α × Nat :=
  match b with
  | [] => (a, minGallop)
  | y :: b1 =>
    if b1.length = 0 then ([y] ++ a, minGallop)
    else if a.length = 1 then ([y] ++ b1 ++ a, minGallop)
    else mergeLowLoop cmp (2 * (a.length + b1.length) + 1) false false [y] a b1 minGallop 0 0

/-- The two loops of `MergeHigh` after its first copy, the mirror image of
`mergeLowLoop`: `a` is what is left of run A in the work array (up to `cursorA`),
`b` what is left of the temp array (run B, up to `cursorTemp`), `out` the merged
elements written so far (behind `dest`); elements are taken from the right ends.
`Succeed` copies what is left of the temp array in front of `out` (what is left of A
already stands in front of it), `CopyA` moves the rest of A up and puts the first
element of B in front of it. -/
def mergeHighLoop (cmp : α → α → Int) :
    Nat → Bool → Bool → List α → List α → List α → Nat → Nat → Nat → List α × Nat
  | 0, _, _, a, b, out, minGallop, _, _ => (a ++ b ++ out, minGallop)
  | fuel + 1, false, _, a, b, out, minGallop, nofWinsA, nofWinsB =>
    match a.getLast?, b.getLast? with
    | some x, some y =>
      if cmp y x < 0 then
        if a.dropLast.length = 0 then (b ++ (x :: out), minGallop)
        else if minGallop ≤ nofWinsA + 1 then
          mergeHighLoop cmp fuel true true a.dropLast b (x :: out) (minGallop + 1) (nofWinsA + 1) 0
        else
          mergeHighLoop cmp fuel false false a.dropLast b (x :: out) minGallop (nofWinsA + 1) 0
      else
        if b.dropLast.length = 1 then (b.dropLast ++ a ++ (y :: out), minGallop)
        else if minGallop ≤ nofWinsB + 1 then
          mergeHighLoop cmp fuel true true a b.dropLast (y :: out) (minGallop + 1) 0 (nofWinsB + 1)
        else
          mergeHighLoop cmp fuel false false a b.dropLast (y :: out) minGallop 0 (nofWinsB + 1)
    | _, _ => (a ++ b ++ out, minGallop)
  | fuel + 1, true, firstIteration, a, b, out, minGallop, nofWinsA, nofWinsB =>
    if kMinGallopWins ≤ nofWinsA ∨ kMinGallopWins ≤ nofWinsB ∨ firstIteration = true then
      let minGallop := max 1 (minGallop - 1)
      match b.getLast? with
      | none => (a ++ out, minGallop)
      | some y =>
        let k := gallopRight cmp y a (a.length - 1)
        let nofWinsA := a.length - k
        let out1 := a.drop k ++ out
        let a1 := a.take k
        if 0 < nofWinsA ∧ a1.length = 0 then (b ++ out1, minGallop)
        else if b.dropLast.length = 1 then (b.dropLast ++ a1 ++ (y :: out1), minGallop)
        else
          match a1.getLast? with
          | none => (b.dropLast ++ (y :: out1), minGallop)
          | some x =>
            let b1 := b.dropLast
            let k := gallopLeft cmp x b1 (b1.length - 1)
            let nofWinsB := b1.length - k
            let out2 := b1.drop k ++ (y :: out1)
            let b2 := b1.take k
            if 0 < nofWinsB ∧ b2.length = 1 then (b2 ++ a1 ++ out2, minGallop)
            else if 0 < nofWinsB ∧ b2.length = 0 then (a1 ++ out2, minGallop)
            else if a1.dropLast.length = 0 then (b2 ++ (x :: out2), minGallop)
            else mergeHighLoop cmp fuel true false a1.dropLast b2 (x :: out2) minGallop nofWinsA nofWinsB
    else mergeHighLoop cmp fuel false false a b out (minGallop + 1) 0 0

/-- `MergeHigh(baseA, lengthA, baseB, lengthB)`: run B is copied to the temp array,
the last element of A goes to the back, then the loops merge from the right. -/
def mergeHigh (cmp : α → α → Int) (a b : List α) (minGallop : Nat) : List α × Nat :=
  match a.getLast? with
  | none => (b, minGallop)
  | some x =>
    if a.dropLast.length = 0 then (b ++ [x], minGallop)
    else if b.length = 1 then (b ++ a.dropLast ++ [x], minGallop)
    else mergeHighLoop cmp (2 * (a.length + b.length) + 1) false false a.dropLast b [x] minGallop 0 0

/-- The merge that `MergeAt(i)` performs on the two adjacent runs `a` and `b`:
`GallopRight` finds where the first element of B belongs in A (what stands before
is in place), `GallopLeft` where the last element of A belongs in B (what stands
behind is in place), and the rest is merged by `MergeLow` or `MergeHigh`,
whichever needs the smaller temp array. -/
def mergeRuns (cmp : α → α → Int) (a b : List α) (minGallop : Nat) : List α × Nat :=
  match b with
  | [] => (a, minGallop)
  | keyRight :: _ =>
    let k := gallopRight cmp keyRight a 0
    let a1 := a.drop k
    match a1.getLast? with
    | none => (a ++ b, minGallop)
    | some keyLeft =>
      let lengthB := gallopLeft cmp keyLeft b (b.length - 1)
      let b1 := b.take lengthB
      if lengthB = 0 then (a ++ b, minGallop)
      else
        let r := if a1.length ≤ lengthB then mergeLow cmp a1 b1 minGallop
                 else mergeHigh cmp a1 b1 minGallop
        (a.take k ++ r.1 ++ b.drop lengthB, r.2)

/-- `MergeAt(i)` on the stack of pending runs (bottom first): runs `i` and `i + 1`
become one run. -/
def mergeAt (cmp : α → α → Int) (runs : List (List α)) (i : Nat) (minGallop : Nat) :
    List (List α) × Nat :=
  match runs.drop i with
  | a :: b :: rest =>
    let r := mergeRuns cmp a b minGallop
    (runs.take i ++ r.1 :: rest, r.2)
  | _ => (runs, minGallop)

/-- `GetPendingRunLength(pendingRuns, i)`. -/
def runLength (runs : List (List α)) (i : Nat) : Nat :=
  match runs[i]? with
  | some r => r.length
  | none => 0

/-- `RunInvariantEstablished(pendingRuns, n)`:
`run_length(n - 2) > run_length(n - 1) + run_length(n)`, true for `n < 2`. -/
def runInvariantEstablished (runs : List (List α)) (n : Nat) : Bool :=
  if n < 2 then true
  else decide (runLength runs (n - 1) + runLength runs n < runLength runs (n - 2))

/-- `MergeCollapse`: merges adjacent runs until the invariants of the stack hold. -/
def mergeCollapse (cmp : α → α → Int) : Nat → List (List α) → Nat → List (List α) × Nat
  | 0, runs, minGallop => (runs, minGallop)
  | fuel + 1, runs, minGallop =>
    if 1 < runs.length then
      let n := runs.length - 2
      if !runInvariantEstablished runs (n + 1) || !runInvariantEstablished runs n then
        let n := if runLength runs (n - 1) < runLength runs (n + 1) then n - 1 else n
        let r := mergeAt cmp runs n minGallop
        mergeCollapse cmp fuel r.1 r.2
      else if runLength runs n ≤ runLength runs (n + 1) then
        let r := mergeAt cmp runs n minGallop
        mergeCollapse cmp fuel r.1 r.2
      else (runs, minGallop)
    else (runs, minGallop)

/-- `MergeForceCollapse`: merges all runs of the stack until one is left. -/
def mergeForceCollapse (cmp : α → α → Int) : Nat → List (List α) → Nat → List (List α) × Nat
  | 0, runs, minGallop => (runs, minGallop)
  | fuel + 1, runs, minGallop =>
    if 1 < runs.length then
      let n := runs.length - 2
      let n := if 0 < n ∧ runLength runs (n - 1) < runLength runs (n + 1) then n - 1 else n
      let r := mergeAt cmp runs n minGallop
      mergeForceCollapse cmp fuel r.1 r.2
    else (runs, minGallop)

/-- The first half of the loop body of `ArrayTimSortImpl` on the part `remaining`
of the work array that starts at `low`: `CountAndMakeRun` finds the run at `low`, and
a run shorter than `minRunLength` is extended to `min(minRunLength, remaining)`
elements by `BinaryInsertionSort`. Returns the run that is pushed and the part of the
array behind it. -/
def nextRun (cmp : α → α → Int) (minRunLength : Nat) (remaining : List α) : List α × List α :=
  let r := countAndMakeRun cmp remaining
  let currentRunLength := r.1
  if currentRunLength < minRunLength then
    let forcedRunLength := min minRunLength remaining.length
    (binaryInsertionSort cmp (r.2.take currentRunLength)
        ((r.2.drop currentRunLength).take (forcedRunLength - currentRunLength)),
      r.2.drop forcedRunLength)
  else (r.2.take currentRunLength, r.2.drop currentRunLength)

/-- The loop of `ArrayTimSortImpl`: `remaining` is the part of the work array from
`low` on, `runs` the stack of pending runs (they make up the part before `low`).
Each round pushes the next run and lets `MergeCollapse` restore the stack. -/
def timSortLoop (cmp : α → α → Int) (minRunLength : Nat) :
    Nat → List (List α) → List α → Nat → List (List α) × List α × Nat
  | 0, runs, remaining, minGallop => (runs, remaining, minGallop)
  | fuel + 1, runs, remaining, minGallop =>
    if remaining.length ≠ 0 then
      let r := nextRun cmp minRunLength remaining
      let pushed := runs ++ [r.1]
      let c := mergeCollapse cmp pushed.length pushed minGallop
      timSortLoop cmp minRunLength fuel c.1 r.2 c.2
    else (runs, remaining, minGallop)

/-- `ArrayTimSortImpl(context, sortState, length)`. -/
def timSort (cmp : α → α → Int) (xs : List α) : List α :=
  if xs.length < 2 then xs
  else
    let s := timSortLoop cmp (computeMinRunLength xs.length) xs.length [] xs kMinGallopWins
    let f := mergeForceCollapse cmp s.1.length s.1 s.2.2
    f.1.flatten ++ s.2.1

/-- `Array.prototype.sort(comparefn)` on an array without holes and without
`undefined` elements: the elements are copied to the work array, sorted by
`ArrayTimSortImpl` and copied back. `cmp x y` is the number `comparefn(x, y)`
returns; the engine only asks whether it is below zero. -/
def sort (cmp : α → α → Int) (xs : List α) : List α := timSort cmp xs

/-! ### What the sort guarantees: the notions

The engine only looks at the sign of `comparefn(x, y)`. `Respects cmp k` says
that this sign never contradicts the order of a key `k`: a comparator may
answer "less" on equal keys, as the one of `main.js` does. -/

/-- The sign of `cmp` agrees with the order of the key `k`. -/
def Respects (cmp : α → α → Int) (k : α → Nat) : Prop :=
  ∀ x y, (cmp x y < 0 → k x ≤ k y) ∧ (¬ cmp x y < 0 → k y ≤ k x)

/-- A list in non-decreasing order of the key `k`. -/
def SortedBy (k : α → Nat) (l : List α) : Prop := l.Pairwise (fun a b => k a ≤ k b)

/-- The test `p` puts before the key only elements not above `kk`, and behind it
only elements not below `kk`. -/
def Splits (p : α → Bool) (k : α → Nat) (kk : Nat) : Prop :=
  ∀ x, (p x = true → k x ≤ kk) ∧ (p x = false → kk ≤ k x)

/-- What `MergeLow` keeps true between its steps. -/
structure LowInv (k : α → Nat) (out a b : List α) : Prop where
  out_sorted : SortedBy k out
  a_sorted : SortedBy k a
  b_sorted : SortedBy k b
  out_le_a : ∀ x ∈ out, ∀ y ∈ a, k x ≤ k y
  out_le_b : ∀ x ∈ out, ∀ y ∈ b, k x ≤ k y
  b_le_last : ∀ z ∈ a.getLast?, ∀ y ∈ b, k y ≤ k z

/-- What `MergeHigh` keeps true between its steps. -/
structure HighInv (k : α → Nat) (a b out : List α) : Prop where
  a_sorted : SortedBy k a
  b_sorted : SortedBy k b
  out_sorted : SortedBy k out
  a_le_out : ∀ x ∈ a, ∀ y ∈ out, k x ≤ k y
  b_le_out : ∀ x ∈ b, ∀ y ∈ out, k x ≤ k y
  head_le_a : ∀ z ∈ b.head?, ∀ x ∈ a, k z ≤ k x

end V8

/-! ## `compileData` (lines 146-198)

The two inputs are the arrays that `readFromFileJSON` returns: the identity
transactions (`transactions_node_tz.json`) and the deposit transactions
(`transactions_node_deposits.json`). `blockNumber` and `timeStamp` come as decimal
strings of natural numbers; the record holds the number that `parseInt` reads.
The decoding of the call data by `ethers` is a parameter `decode`: it gives the
first decoded parameter `tz[0]`, or nothing when anything in the `try` block throws. -/

/-- A transaction record of the Etherscan API: the fields that `compileData` reads. -/
structure Tx where
  from_ : String
  to_ : String
  input : String
  blockNumber : Nat
  timeStamp : Nat
  functionName : String
  deriving DecidableEq, Repr

/-- A run of JavaScript that throws instead of returning. -/
inductive JsError where
  | typeError (message : String)
  deriving DecidableEq, Repr

/-- An identity transaction with the field `timezone` that line 155 adds. -/
structure NodeTz where
  tx : Tx
  timezone : String
  deriving DecidableEq, Repr

/-- A row of `node_deposits` after line 170, and a row of `tz_migrations`:
the transaction's fields with `timezone` and `accumulator`. -/
structure Deposit where
  tx : Tx
  timezone : String
  accumulator : Int
  deriving DecidableEq, Repr

/-- A row of the output `node_tz_accumulator` (line 193). -/
structure Entry where
  node : String
  block : Nat
  timeStamp : Nat
  timezone : String
  accumulator : Int
  deriving DecidableEq, Repr

/-- `s.includes(pat)` on the characters of two strings. -/
def includesChars (s pat : List Char) : Bool :=
  s.tails.any (fun t => pat.isPrefixOf t)

/-- `s.includes(pat)`. -/
def includes (s pat : String) : Bool := includesChars s.data pat.data

/-- Lines 150-159, `node_tz.map(...)`: a transaction whose call data decodes gets the
field `timezone`; when the decoding throws, the callback logs the error and returns
nothing, so the array holds `undefined` in that place. -/
def decodeAll (decode : Tx → Option String) (node_tz : List Tx) : List (Option NodeTz) :=
  node_tz.map (fun x =>
    match decode x with
    | some tz => some { tx := x, timezone := tz }
    | none => none)

/-- Lines 161-162, `node_tz.filter((x) => x.functionName.includes(name))`: the
callback reads `x.functionName`, which throws a `TypeError` on `undefined`. -/
def filterByFunctionName (name : String) : List (Option NodeTz) → Except JsError (List NodeTz)
  | [] => Except.ok []
  | none :: _ =>
    Except.error (JsError.typeError "Cannot read properties of undefined (reading 'functionName')")
  | some x :: rest =>
    match filterByFunctionName name rest with
    | Except.error e => Except.error e
    | Except.ok r => Except.ok (if includes x.tx.functionName name then x :: r else r)

/-- Lines 166-170, the callback of `node_deposits.map`: the registrations of the same
sender are filtered out of `node_tz_inits`; when there is none, `1` is logged and
`node_tz[0].timezone` throws a `TypeError`; else the first one gives the timezone. -/
def attachInitial (node_tz_inits : List NodeTz) (x : Tx) : Except JsError Deposit :=
  match node_tz_inits.filter (fun y => decide (y.tx.from_ = x.from_)) with
  | [] => Except.error (JsError.typeError "Cannot read properties of undefined (reading 'timezone')")
  | y :: _ => Except.ok { tx := x, timezone := y.timezone, accumulator := 1 }

/-- Lines 165-171, `node_deposits.map(...)`. -/
def attachAll (node_tz_inits : List NodeTz) : List Tx → Except JsError (List Deposit)
  | [] => Except.ok []
  | x :: rest =>
    match attachInitial node_tz_inits x with
    | Except.error e => Except.error e
    | Except.ok d =>
      match attachAll node_tz_inits rest with
      | Except.error e => Except.error e
      | Except.ok ds => Except.ok (d :: ds)

/-- Lines 181-188, the body of the inner `forEach` for the timezone change `x` and
the deposit `y`: the deposit as it is left (its `timezone` may be overwritten) and
the rows pushed to `tz_migrations`. -/
def migrate (x : NodeTz) (y : Deposit) : Deposit × List Deposit :=
  let tzBlock := x.tx.blockNumber
  if x.tx.from_ = y.tx.from_ then
    if y.tx.blockNumber ≤ tzBlock then
      (y, [{ tx := { y.tx with blockNumber := tzBlock, timeStamp := x.tx.timeStamp },
             timezone := y.timezone, accumulator := -1 },
           { tx := { y.tx with blockNumber := tzBlock, timeStamp := x.tx.timeStamp },
             timezone := x.timezone, accumulator := 1 }])
    else if tzBlock < y.tx.blockNumber then
      ({ y with timezone := x.timezone }, [])
    else (y, [])
  else (y, [])

/-- Lines 180-189, `node_deposits.forEach(...)` for one timezone change: the
deposits as they are left and `tz_migrations` with the rows pushed. -/
def forEachDeposit (x : NodeTz) : List Deposit → List Deposit → List Deposit × List Deposit
  | [], tz_migrations => ([], tz_migrations)
  | y :: rest, tz_migrations =>
    let r := forEachDeposit x rest (tz_migrations ++ (migrate x y).2)
    ((migrate x y).1 :: r.1, r.2)

/-- Lines 178-190, `node_tz_resets.forEach(...)`. -/
def forEachReset : List NodeTz → List Deposit → List Deposit → List Deposit × List Deposit
  | [], node_deposits, tz_migrations => (node_deposits, tz_migrations)
  | x :: rest, node_deposits, tz_migrations =>
    let r := forEachDeposit x node_deposits tz_migrations
    forEachReset rest r.1 r.2

/-- Line 193, the callback of the last `map`. -/
def toEntry (x : Deposit) : Entry :=
  { node := x.tx.from_, block := x.tx.blockNumber, timeStamp := x.tx.timeStamp,
    timezone := x.timezone, accumulator := x.accumulator }

/-- Line 196, the comparator: `parseInt(a.block) > parseInt(b.block) ? 1 : -1`. -/
def byBlock (a b : Entry) : Int := if a.block > b.block then 1 else -1

/-- `compileData` after the two files are read: the array written to
`node_tz_outputs.json`, or the error thrown on the way. -/
def compileData (decode : Tx → Option String) (node_tz node_deposits : List Tx) :
    Except JsError (List Entry) :=
  let node_tz := decodeAll decode node_tz
  match filterByFunctionName "registerNode" node_tz with
  | Except.error e => Except.error e
  | Except.ok node_tz_inits =>
    match filterByFunctionName "setTimezone" node_tz with
    | Except.error e => Except.error e
    | Except.ok node_tz_resets =>
      match attachAll node_tz_inits node_deposits with
      | Except.error e => Except.error e
      | Except.ok node_deposits =>
        let r := forEachReset node_tz_resets node_deposits []
        let node_tz_accumulator := (r.1 ++ r.2).map toEntry
        Except.ok (V8.sort byBlock node_tz_accumulator)

/-- A decoder for the examples: the call data is the timezone itself, and
empty call data does not decode. -/
def plainDecode (x : Tx) : Option String := if x.input = "" then none else some x.input

/-- A `registerNode` transaction. -/
def registerTx (sender timezone : String) (block time : Nat) : Tx :=
  { from_ := sender, to_ := "0x4477", input := timezone, blockNumber := block, timeStamp := time,
    functionName := "registerNode(string _timezoneLocation)" }

/-- A `setTimezoneLocation` transaction. -/
def setTimezoneTx (sender timezone : String) (block time : Nat) : Tx :=
  { from_ := sender, to_ := "0x4477", input := timezone, blockNumber := block, timeStamp := time,
    functionName := "setTimezoneLocation(string _timezoneLocation)" }

/-- A `deposit` transaction. -/
def depositTx (sender : String) (block time : Nat) : Tx :=
  { from_ := sender, to_ := "0x1cc9", input := "0x", blockNumber := block, timeStamp := time,
    functionName := "deposit(uint256 _minimumNodeFee,bytes _validatorPubkey)" }

/-! ## The ledger in closed form -/

/-- The decoded identity events whose function name includes `name`, in input
order: the registrations for `"registerNode"`, the timezone changes for
`"setTimezone"`. -/
def identityEvents (name : String) (decode : Tx → Option String) (node_tz : List Tx) :
    List NodeTz :=
  node_tz.filterMap (fun x =>
    match decode x with
    | some tz => if includes x.functionName name then some { tx := x, timezone := tz } else none
    | none => none)

/-- The timezone of the first registration, in input order, of the sender of `d`
(the empty string when there is none). -/
def registeredTimezone (inits : List NodeTz) (d : Tx) : String :=
  match inits.filter (fun y => decide (y.tx.from_ = d.from_)) with
  | [] => ""
  | y :: _ => y.timezone

/-- The timezone changes that precede the deposit `d`: same sender, block height
strictly below the deposit's. -/
def changesBefore (resets : List NodeTz) (d : Tx) : List NodeTz :=
  resets.filter (fun c => decide (c.tx.from_ = d.from_ ∧ c.tx.blockNumber < d.blockNumber))

/-- The timezone that the deposit's own row ends with: the new timezone of the last
change, in input order, among those that precede the deposit, else the registered
timezone. -/
def timezoneInForce (inits resets : List NodeTz) (d : Tx) : String :=
  match (changesBefore resets d).getLast? with
  | some c => c.timezone
  | none => registeredTimezone inits d

/-- The row of the ledger that stems from the deposit `d` itself. -/
def ownEntry (inits resets : List NodeTz) (d : Tx) : Entry :=
  { node := d.from_, block := d.blockNumber, timeStamp := d.timeStamp,
    timezone := timezoneInForce inits resets d, accumulator := 1 }

/-- The pairs of a timezone change and a deposit of the same sender whose block
height is not above the change's, in the order the two loops meet them. -/
def affectedPairs (resets : List NodeTz) (deposits : List Tx) : List (NodeTz × Tx) :=
  resets.flatMap (fun c =>
    (deposits.filter (fun d =>
      decide (c.tx.from_ = d.from_ ∧ d.blockNumber ≤ c.tx.blockNumber))).map (fun d => (c, d)))

/-- The two rows of a migration pair: a removal at the change's block and time, and
an addition with the change's new timezone. -/
def IsMigrationPair (p : NodeTz × Tx) (m : List Entry) : Prop :=
  ∃ old : String, m =
    [{ node := p.2.from_, block := p.1.tx.blockNumber, timeStamp := p.1.tx.timeStamp,
       timezone := old, accumulator := -1 },
     { node := p.2.from_, block := p.1.tx.blockNumber, timeStamp := p.1.tx.timeStamp,
       timezone := p.1.timezone, accumulator := 1 }]

/-- The rows that all later rounds of the outer loop push, given the deposits as
they stand. -/
def allMigrations : List NodeTz → List Deposit → List (List Deposit)
  | [], _ => []
  | x :: rest, ds =>
    ((ds.filter (fun y =>
        decide (x.tx.from_ = y.tx.from_ ∧ y.tx.blockNumber ≤ x.tx.blockNumber))).map
      (fun y => (migrate x y).2))
    ++ allMigrations rest (ds.map (fun y => (migrate x y).1))

/-- The sum of the weights of the rows of `node` with the timezone `timezone` and a
block height up to `h`: how many deposits of the node the ledger attributes to the
timezone at that height. -/
def netWeight (ledger : List Entry) (node : String) (h : Nat) (timezone : String) : Int :=
  ((ledger.filter (fun e =>
    decide (e.node = node ∧ e.block ≤ h ∧ e.timezone = timezone))).map
      (fun e => e.accumulator)).sum

/-- The change with the greatest block height of a list (the later one in the list
among equals). -/
def latestByBlock (changes : List NodeTz) : Option NodeTz :=
  changes.foldl (fun best c =>
    match best with
    | none => some c
    | some b => if b.tx.blockNumber ≤ c.tx.blockNumber then some c else some b) none

/-- The timezone in force just before the block of the transaction `d`, as the
specification words it: the new timezone of the sender's latest change by block
height among those strictly below the block of `d`, else the registered timezone. -/
def timezoneByBlockHeight (inits resets : List NodeTz) (d : Tx) : String :=
  match latestByBlock (changesBefore resets d) with
  | some c => c.timezone
  | none => registeredTimezone inits d

/-- The row of the ledger that stems from the deposit `d` itself, with the timezone
in force by block height. -/
def ownEntryByBlock (inits resets : List NodeTz) (d : Tx) : Entry :=
  { node := d.from_, block := d.blockNumber, timeStamp := d.timeStamp,
    timezone := timezoneByBlockHeight inits resets d, accumulator := 1 }

/-- The timezone changes of every sender stand in the list in non-decreasing order
of block height. -/
def ChangesInBlockOrder (resets : List NodeTz) : Prop :=
  resets.Pairwise (fun c₁ c₂ => c₁.tx.from_ = c₂.tx.from_ →
    c₁.tx.blockNumber ≤ c₂.tx.blockNumber)

/-- The scenario of the specification: `A` registers with `"UTC"` at block 100 and
sets the timezone to `"UTC+2"` at block 200. -/
def scenarioIdentity : List Tx :=
  [registerTx "A" "UTC" 100 1000, setTimezoneTx "A" "UTC+2" 200 2000]

/-- The scenario of the specification: `A` deposits at block 150 and at block 250. -/
def scenarioDeposits : List Tx := [depositTx "A" 150 1500, depositTx "A" 250 2500]

/-- One deposit behind two timezone changes: `A` registers with `"UTC"` at block 100
and sets the timezone to `"UTC+1"` at block 200 and to `"UTC+2"` at block 300. -/
def twoChangesIdentity : List Tx :=
  [registerTx "A" "UTC" 100 1000, setTimezoneTx "A" "UTC+1" 200 2000,
   setTimezoneTx "A" "UTC+2" 300 3000]

/-- Two timezone changes that stand in the input against their block order. -/
def unorderedIdentity : List Tx :=
  [registerTx "A" "UTC" 100 1000, setTimezoneTx "A" "UTC+2" 300 3000,
   setTimezoneTx "A" "UTC+1" 200 2000]

/-! ## The fetcher (lines 16-49)

`Date.now()` is the field `now` of the state, in milliseconds. Time passes only
where the code awaits: a timer that is set for `ms` milliseconds fires after `ms`
plus a lag, a request takes its lag; the lags, the answers of the network and the
values of `Math.random()` are the world the code runs in. -/

/-- What `fetch` resolves to: the fields that `fetchUrl` reads. -/
structure Response where
  status : Nat
  statusText : String
  deriving DecidableEq, Repr

/-- The world outside the script. -/
structure World where
  /-- The outcome of the `n`-th call of `fetch` (counted from 0) for a URL: a
  response, or the error that a failure of the transport throws. -/
  respond : String → Nat → Except String Response
  /-- The milliseconds that pass at the `n`-th await beyond the timer's delay. -/
  lag : Nat → Nat
  /-- `Math.floor(Math.random() * 1000)` at the `n`-th await, taken modulo 1000. -/
  random : Nat → Nat

/-- The state of the script between two steps. -/
structure FetchState where
  /-- `Date.now()`. -/
  now : Int
  /-- The module variable `calls` (line 17). -/
  calls : List Int
  /-- How many awaits of a timer or a request have been passed. -/
  awaits : Nat
  /-- How many requests have been issued. -/
  requests : Nat
  deriving DecidableEq, Repr

/-- `rateLimit[0]`, the most calls in a window (line 16). -/
def maxCalls : Nat := 30

/-- `rateLimit[1]`, the length of the window in milliseconds (line 16). -/
def windowMs : Int := 60000

/-- `calls = calls.filter((t) => t > Date.now() - rateLimit[1])` (lines 20 and 24). -/
def pruneCalls (s : FetchState) : FetchState :=
  { s with calls := s.calls.filter (fun t => decide (t > s.now - windowMs)) }

/-- `await new Promise((resolve) => setTimeout(resolve, ms))`. -/
def sleep (w : World) (ms : Nat) (s : FetchState) : FetchState :=
  { s with now := s.now + ms + w.lag s.awaits, awaits := s.awaits + 1 }

/-- The loop of `rateLimitCalls` (lines 21-25): `while (calls.length > rateLimit[0])`
wait ten seconds and prune again. `none` when the fuel ends before the loop does. -/
def rateLimitLoop (w : World) : Nat → FetchState → Option FetchState
  | 0, s => if maxCalls < s.calls.length then none else some s
  | fuel + 1, s =>
    if maxCalls < s.calls.length then rateLimitLoop w fuel (pruneCalls (sleep w (1000 * 10) s))
    else some s

/-- `rateLimitCalls` (lines 19-27). -/
def rateLimitCalls (w : World) (fuel : Nat) (s : FetchState) : Option FetchState :=
  rateLimitLoop w fuel (pruneCalls s)

/-- `retryStatuses.includes(res.status)` (lines 34 and 37). -/
def isRetryStatus (status : Nat) : Bool := status == 429 || status == 503

/-- `calls.push(Date.now())` (line 32). -/
def recordCall (s : FetchState) : FetchState :=
  { s with calls := s.calls ++ [s.now] }

/-- `await fetch(url)` (line 36), as far as the state goes: the request is issued
and time passes until it settles. -/
def awaitResponse (w : World) (s : FetchState) : FetchState :=
  { s with now := s.now + w.lag s.awaits, awaits := s.awaits + 1, requests := s.requests + 1 }

/-- `fetchUrl(url, retries)` (lines 30-49): what the promise settles to (a response,
or the error of the transport, which the `catch` throws again) and the state then;
`none` when the fuel ends in a loop of `rateLimitCalls`. -/
def fetchUrl (w : World) (fuel : Nat) (url : String) :
    Nat → FetchState → Option (Except String Response × FetchState)
  | retries, s =>
    match rateLimitCalls w fuel s with
    | none => none
    | some s1 =>
      let s2 := recordCall s1
      let s3 := awaitResponse w s2
      match w.respond url s2.requests with
      | Except.error e => some (Except.error e, s3)
      | Except.ok res =>
        if isRetryStatus res.status then
          match retries with
          | 0 => some (Except.ok res, s3)
          | retries + 1 =>
            let waitTime := 20000 + w.random s3.awaits % 1000
            fetchUrl w fuel url retries (sleep w waitTime s3)
        else some (Except.ok res, s3)

/-- Calls of `fetchUrl` made one after another, each awaited before the next: the
state after the last, `none` when one of them does not settle or throws. -/
def fetchAll (w : World) (fuel : Nat) (retries : Nat) : List String → FetchState → Option FetchState
  | [], s => some s
  | url :: rest, s =>
    match fetchUrl w fuel url retries s with
    | some (Except.ok _, s1) => fetchAll w fuel retries rest s1
    | _ => none

/-- A world where every request is answered `200 OK` after one second. -/
def quietWorld : World :=
  { respond := fun _ _ => Except.ok { status := 200, statusText := "OK" },
    lag := fun _ => 1000,
    random := fun _ => 0 }

/-- A world that answers `429` twice and then `200`. -/
def busyWorld : World :=
  { respond := fun _ n =>
      if n < 2 then Except.ok { status := 429, statusText := "Too Many Requests" }
      else Except.ok { status := 200, statusText := "OK" },
    lag := fun _ => 100,
    random := fun n => 7 * n }

/-! ## Theorems: `Array.prototype.sort` -/

namespace V8

variable {α : Type}

theorem sortedBy_getElem_le {k : α → Nat} {a : List α} (hs : SortedBy k a) {i j : Nat}
    (hij : i ≤ j) (hi : i < a.length) (hj : j < a.length) : k a[i] ≤ k a[j] := by
  rcases Nat.eq_or_lt_of_le hij with h | h
  · subst h; exact le_rfl
  · exact (List.pairwise_iff_getElem.mp hs) i j hi hj h

theorem testAt_true {p : α → Bool} {a : List α} {i : Nat} (h : testAt p a i = true) :
    ∃ hi : i < a.length, p a[i] = true := by
  unfold testAt at h
  by_cases hi : i < a.length
  · rw [List.getElem?_eq_getElem hi] at h
    exact ⟨hi, h⟩
  · rw [List.getElem?_eq_none (by omega)] at h
    cases h

theorem testAt_false {p : α → Bool} {a : List α} {i : Nat} (hi : i < a.length)
    (h : testAt p a i = false) : p a[i] = false := by
  unfold testAt at h
  rw [List.getElem?_eq_getElem hi] at h
  exact h

theorem below_of_testAt {p : α → Bool} {k : α → Nat} {kk : Nat} {a : List α}
    (hp : Splits p k kk) (hs : SortedBy k a) {i : Nat} (h : testAt p a i = true) :
    ∀ x ∈ a.take (i + 1), k x ≤ kk := by
  obtain ⟨hi, hpi⟩ := testAt_true h
  intro x hx
  obtain ⟨j, hj, rfl⟩ := List.mem_take_iff_getElem.mp hx
  have hj1 : j ≤ i := by
    have := Nat.lt_min.mp hj
    omega
  exact le_trans (sortedBy_getElem_le hs hj1 (by omega) hi) ((hp _).1 hpi)

theorem above_of_testAt {p : α → Bool} {k : α → Nat} {kk : Nat} {a : List α}
    (hp : Splits p k kk) (hs : SortedBy k a) {i : Nat} (hi : i < a.length)
    (h : testAt p a i = false) : ∀ x ∈ a.drop i, kk ≤ k x := by
  have hpi := testAt_false hi h
  intro x hx
  obtain ⟨j, hj, rfl⟩ := List.mem_drop_iff_getElem.mp hx
  exact le_trans ((hp _).2 hpi) (sortedBy_getElem_le hs (Nat.le_add_right i j) hi (by omega))

theorem below_mono {k : α → Nat} {kk : Nat} {a : List α} {i j : Nat} (hij : i ≤ j)
    (h : ∀ x ∈ a.take j, k x ≤ kk) : ∀ x ∈ a.take i, k x ≤ kk := by
  intro x hx
  obtain ⟨n, hn, rfl⟩ := List.mem_take_iff_getElem.mp hx
  have := Nat.lt_min.mp hn
  exact h _ (List.mem_take_iff_getElem.mpr ⟨n, Nat.lt_min.mpr ⟨by omega, this.2⟩, rfl⟩)

theorem above_mono {k : α → Nat} {kk : Nat} {a : List α} {i j : Nat} (hij : i ≤ j)
    (h : ∀ x ∈ a.drop i, kk ≤ k x) : ∀ x ∈ a.drop j, kk ≤ k x := by
  intro x hx
  obtain ⟨n, hn, rfl⟩ := List.mem_drop_iff_getElem.mp hx
  refine h _ (List.mem_drop_iff_getElem.mpr ⟨j - i + n, by omega, ?_⟩)
  congr 1
  omega

/-- The binary search ends at a place that splits the run around the key. -/
theorem bisect_spec {p : α → Bool} {k : α → Nat} {kk : Nat} {a : List α}
    (hp : Splits p k kk) (hs : SortedBy k a) :
    ∀ (fuel lo hi : Nat), hi - lo ≤ fuel → hi ≤ a.length →
      (∀ x ∈ a.take lo, k x ≤ kk) → (∀ x ∈ a.drop hi, kk ≤ k x) →
      (∀ x ∈ a.take (bisect p a fuel lo hi), k x ≤ kk) ∧
      (∀ x ∈ a.drop (bisect p a fuel lo hi), kk ≤ k x) := by
  intro fuel
  induction fuel with
  | zero =>
    intro lo hi hf _ hlo hhi
    simp only [bisect]
    exact ⟨below_mono (by omega) hlo, hhi⟩
  | succ fuel ih =>
    intro lo hi hf hlen hlo hhi
    simp only [bisect]
    split_ifs with h1 h2
    · have hm : lo + ((hi - lo) >>> 1) < hi := by
        rw [Nat.shiftRight_eq_div_pow]; omega
      exact ih _ _ (by rw [Nat.shiftRight_eq_div_pow] at hm ⊢; omega) hlen
        (below_of_testAt hp hs h2) hhi
    · have hm : lo + ((hi - lo) >>> 1) < hi := by
        rw [Nat.shiftRight_eq_div_pow]; omega
      exact ih _ _ (by rw [Nat.shiftRight_eq_div_pow] at hm ⊢; omega) (by omega) hlo
        (above_of_testAt hp hs (by omega) (by simpa using h2))
    · exact ⟨below_mono (by omega) hlo, hhi⟩

theorem gallopUp_spec {p : α → Bool} {k : α → Nat} {kk : Nat} {a : List α}
    (hp : Splits p k kk) (hs : SortedBy k a) (hint : Nat) :
    ∀ (fuel lastOfs offset : Nat), a.length - hint ≤ fuel + offset →
      (∀ x ∈ a.take (hint + lastOfs + 1), k x ≤ kk) →
      (∀ x ∈ a.take (hint + (gallopUp p a hint (a.length - hint) fuel lastOfs offset).1 + 1),
          k x ≤ kk) ∧
      ((gallopUp p a hint (a.length - hint) fuel lastOfs offset).2 < a.length - hint →
        ∀ x ∈ a.drop (hint + (gallopUp p a hint (a.length - hint) fuel lastOfs offset).2),
          kk ≤ k x) := by
  intro fuel
  induction fuel with
  | zero =>
    intro lastOfs offset hf hlo
    simp only [gallopUp]
    exact ⟨hlo, fun h => by omega⟩
  | succ fuel ih =>
    intro lastOfs offset hf hlo
    simp only [gallopUp]
    split_ifs with h1 h2
    · refine ih _ _ ?_ (below_of_testAt hp hs h2)
      rw [Nat.shiftLeft_eq]; omega
    · exact ⟨hlo, fun _ => above_of_testAt hp hs (by omega) (by simpa using h2)⟩
    · exact ⟨hlo, fun h => by omega⟩

theorem gallopDown_spec {p : α → Bool} {k : α → Nat} {kk : Nat} {a : List α}
    (hp : Splits p k kk) (hs : SortedBy k a) (hint : Nat) (hh : hint < a.length) :
    ∀ (fuel lastOfs offset : Nat), hint + 1 ≤ fuel + offset →
      (∀ x ∈ a.drop (hint - lastOfs), kk ≤ k x) →
      (∀ x ∈ a.drop (hint - (gallopDown p a hint (hint + 1) fuel lastOfs offset).1), kk ≤ k x) ∧
      ((gallopDown p a hint (hint + 1) fuel lastOfs offset).2 < hint + 1 →
        ∀ x ∈ a.take (hint - (gallopDown p a hint (hint + 1) fuel lastOfs offset).2 + 1),
          k x ≤ kk) := by
  intro fuel
  induction fuel with
  | zero =>
    intro lastOfs offset hf hhi
    simp only [gallopDown]
    exact ⟨hhi, fun h => by omega⟩
  | succ fuel ih =>
    intro lastOfs offset hf hhi
    simp only [gallopDown]
    split_ifs with h1 h2
    · exact ⟨hhi, fun _ => below_of_testAt hp hs h2⟩
    · refine ih _ _ ?_ (above_of_testAt hp hs (by omega) (by simpa using h2))
      rw [Nat.shiftLeft_eq]; omega
    · exact ⟨hhi, fun h => by omega⟩

/-- The offset that `GallopLeft` or `GallopRight` returns splits a sorted run around
the key: what stands before it is not above the key, what stands from it on is not
below the key. -/
theorem gallop_spec {p : α → Bool} {k : α → Nat} {kk : Nat} {a : List α}
    (hp : Splits p k kk) (hs : SortedBy k a) (hint : Nat) (hh : a ≠ [] → hint < a.length) :
    (∀ x ∈ a.take (gallop p a hint), k x ≤ kk) ∧
    (∀ x ∈ a.drop (gallop p a hint), kk ≤ k x) := by
  by_cases ha : a = []
  · subst ha; simp
  have hh := hh ha
  unfold gallop
  split_ifs with h
  · have hu := gallopUp_spec hp hs hint (a.length - hint) 0 1 (by omega)
      (by simpa using below_of_testAt hp hs h)
    dsimp only
    generalize gallopUp p a hint (a.length - hint) (a.length - hint) 0 1 = r at hu ⊢
    have e1 : r.1 + hint + 1 = hint + r.1 + 1 := by omega
    rw [e1]
    by_cases h2 : a.length - hint < r.2
    · rw [if_pos h2]
      have e2 : a.length - hint + hint = a.length := by omega
      rw [e2]
      exact bisect_spec hp hs _ _ _ (by omega) le_rfl hu.1 (by simp)
    · rw [if_neg h2]
      rcases Nat.eq_or_lt_of_le (Nat.le_of_not_lt h2) with h3 | h3
      · have e2 : r.2 + hint = a.length := by omega
        rw [e2]
        exact bisect_spec hp hs _ _ _ (by omega) le_rfl hu.1 (by simp)
      · have e2 : r.2 + hint = hint + r.2 := by omega
        rw [e2]
        exact bisect_spec hp hs _ _ _ (by omega) (by omega) hu.1 (hu.2 h3)
  · have hd := gallopDown_spec hp hs hint hh (hint + 1) 0 1 (by omega)
      (by simpa using above_of_testAt hp hs hh (by simpa using h))
    dsimp only
    generalize gallopDown p a hint (hint + 1) (hint + 1) 0 1 = r at hd ⊢
    by_cases h2 : hint + 1 < r.2
    · rw [if_pos h2]
      exact bisect_spec hp hs _ _ _ (by omega) (by omega) (by simp) hd.1
    · rw [if_neg h2]
      rcases Nat.eq_or_lt_of_le (Nat.le_of_not_lt h2) with h3 | h3
      · rw [h3]
        exact bisect_spec hp hs _ _ _ (by omega) (by omega) (by simp) hd.1
      · have e : hint + 1 - r.2 = hint - r.2 + 1 := by omega
        rw [e]
        exact bisect_spec hp hs _ _ _ (by omega) (by omega) (hd.2 h3) hd.1

theorem splits_gallopLeft {cmp : α → α → Int} {k : α → Nat} (hc : Respects cmp k) (key : α) :
    Splits (fun x => decide (cmp x key < 0)) k (k key) := by
  intro x
  constructor
  · intro h; exact (hc x key).1 (by simpa using h)
  · intro h; exact (hc x key).2 (by simpa using h)

theorem splits_gallopRight {cmp : α → α → Int} {k : α → Nat} (hc : Respects cmp k) (key : α) :
    Splits (fun x => !decide (cmp key x < 0)) k (k key) := by
  intro x
  constructor
  · intro h; exact (hc key x).2 (by simpa using h)
  · intro h; exact (hc key x).1 (by simpa using h)

theorem gallopLeft_spec {cmp : α → α → Int} {k : α → Nat} (hc : Respects cmp k) (key : α)
    {a : List α} (hs : SortedBy k a) (hint : Nat) (hh : a ≠ [] → hint < a.length) :
    (∀ x ∈ a.take (gallopLeft cmp key a hint), k x ≤ k key) ∧
    (∀ x ∈ a.drop (gallopLeft cmp key a hint), k key ≤ k x) :=
  gallop_spec (splits_gallopLeft hc key) hs hint hh

theorem gallopRight_spec {cmp : α → α → Int} {k : α → Nat} (hc : Respects cmp k) (key : α)
    {a : List α} (hs : SortedBy k a) (hint : Nat) (hh : a ≠ [] → hint < a.length) :
    (∀ x ∈ a.take (gallopRight cmp key a hint), k x ≤ k key) ∧
    (∀ x ∈ a.drop (gallopRight cmp key a hint), k key ≤ k x) :=
  gallop_spec (splits_gallopRight hc key) hs hint hh

theorem sortedBy_append {k : α → Nat} {l₁ l₂ : List α} :
    SortedBy k (l₁ ++ l₂) ↔
      SortedBy k l₁ ∧ SortedBy k l₂ ∧ ∀ x ∈ l₁, ∀ y ∈ l₂, k x ≤ k y :=
  List.pairwise_append

theorem sortedBy_cons {k : α → Nat} {x : α} {l : List α} :
    SortedBy k (x :: l) ↔ (∀ y ∈ l, k x ≤ k y) ∧ SortedBy k l :=
  List.pairwise_cons

theorem sortedBy_take {k : α → Nat} {a : List α} (hs : SortedBy k a) (n : Nat) :
    SortedBy k (a.take n) :=
  List.Pairwise.sublist (List.take_sublist n a) hs

theorem sortedBy_drop {k : α → Nat} {a : List α} (hs : SortedBy k a) (n : Nat) :
    SortedBy k (a.drop n) :=
  List.Pairwise.sublist (List.drop_sublist n a) hs

theorem sortedBy_take_le_drop {k : α → Nat} {a : List α} (hs : SortedBy k a) (n : Nat) :
    ∀ x ∈ a.take n, ∀ y ∈ a.drop n, k x ≤ k y := by
  have h : SortedBy k (a.take n ++ a.drop n) := by rw [List.take_append_drop]; exact hs
  exact (sortedBy_append.mp h).2.2

theorem sortedBy_of_chain {k : α → Nat} {l : List α}
    (h : List.Chain' (fun a b => k a ≤ k b) l) : SortedBy k l := by
  haveI : IsTrans α (fun a b => k a ≤ k b) := ⟨fun _ _ _ h₁ h₂ => le_trans h₁ h₂⟩
  exact List.chain'_iff_pairwise.mp h

theorem chain_of_sortedBy {k : α → Nat} {l : List α} (h : SortedBy k l) :
    List.Chain' (fun a b => k a ≤ k b) l :=
  List.Pairwise.chain' h

/-- A run with one more element put in at a place that splits it stays sorted. -/
theorem sortedBy_insert {k : α → Nat} {a : List α} (hs : SortedBy k a) (x : α) (o : Nat)
    (hlo : ∀ y ∈ a.take o, k y ≤ k x) (hhi : ∀ y ∈ a.drop o, k x ≤ k y) :
    SortedBy k (a.take o ++ x :: a.drop o) := by
  refine sortedBy_append.mpr ⟨sortedBy_take hs o, sortedBy_cons.mpr ⟨hhi, sortedBy_drop hs o⟩, ?_⟩
  intro y hy z hz
  rcases List.mem_cons.mp hz with rfl | hz
  · exact hlo y hy
  · exact sortedBy_take_le_drop hs o y hy z hz

theorem countRun_le (cmp : α → α → Int) (d : Bool) :
    ∀ (rest : List α) (prev : α), countRun cmp d prev rest ≤ rest.length := by
  intro rest
  induction rest with
  | nil => intro prev; simp [countRun]
  | cons cur rest ih =>
    intro prev
    simp only [countRun]
    have := ih cur
    split_ifs <;> simp <;> omega

theorem countRun_ascending {cmp : α → α → Int} {k : α → Nat} (hc : Respects cmp k) :
    ∀ (rest : List α) (prev : α),
      List.Chain (fun a b => k a ≤ k b) prev (rest.take (countRun cmp false prev rest)) := by
  intro rest
  induction rest with
  | nil => intro prev; simp [countRun]
  | cons cur rest ih =>
    intro prev
    simp only [countRun]
    by_cases h : cmp cur prev < 0
    · simp [h]
    · simp only [Bool.false_eq_true, if_false, h, List.take_succ_cons]
      exact List.Chain.cons ((hc cur prev).2 h) (ih cur)

theorem countRun_descending {cmp : α → α → Int} {k : α → Nat} (hc : Respects cmp k) :
    ∀ (rest : List α) (prev : α),
      List.Chain (fun a b => k b ≤ k a) prev (rest.take (countRun cmp true prev rest)) := by
  intro rest
  induction rest with
  | nil => intro prev; simp [countRun]
  | cons cur rest ih =>
    intro prev
    simp only [countRun]
    by_cases h : 0 ≤ cmp cur prev
    · simp [h]
    · simp only [if_true, h, if_false, List.take_succ_cons]
      exact List.Chain.cons ((hc cur prev).1 (by omega)) (ih cur)

theorem countAndMakeRun_perm (cmp : α → α → Int) (xs : List α) :
    (countAndMakeRun cmp xs).2.Perm xs := by
  match xs with
  | [] => simp [countAndMakeRun]
  | [x] => simp [countAndMakeRun]
  | x0 :: x1 :: rest =>
    simp only [countAndMakeRun]
    split_ifs
    · refine List.Perm.trans (List.Perm.append_right _ (List.reverse_perm _)) ?_
      rw [List.take_append_drop]
    · exact List.Perm.refl _

theorem countAndMakeRun_le (cmp : α → α → Int) (xs : List α) :
    (countAndMakeRun cmp xs).1 ≤ xs.length := by
  match xs with
  | [] => simp [countAndMakeRun]
  | [x] => simp [countAndMakeRun]
  | x0 :: x1 :: rest =>
    have := countRun_le cmp (decide (cmp x1 x0 < 0)) rest x1
    simp only [countAndMakeRun]
    split_ifs <;> simp <;> omega

theorem countAndMakeRun_pos (cmp : α → α → Int) (xs : List α) (h : xs ≠ []) :
    0 < (countAndMakeRun cmp xs).1 := by
  match xs with
  | [] => exact absurd rfl h
  | [x] => simp [countAndMakeRun]
  | x0 :: x1 :: rest =>
    simp only [countAndMakeRun]
    split_ifs <;> simp

/-- The run that `CountAndMakeRun` leaves at the head of the array is sorted. -/
theorem countAndMakeRun_sorted {cmp : α → α → Int} {k : α → Nat} (hc : Respects cmp k)
    (xs : List α) :
    SortedBy k ((countAndMakeRun cmp xs).2.take (countAndMakeRun cmp xs).1) := by
  match xs with
  | [] => simp [countAndMakeRun, SortedBy]
  | [x] => simp [countAndMakeRun, SortedBy]
  | x0 :: x1 :: rest =>
    have hle := countRun_le cmp (decide (cmp x1 x0 < 0)) rest x1
    simp only [countAndMakeRun]
    by_cases h : cmp x1 x0 < 0
    · simp only [h, decide_True, if_true]
      have hd := countRun_descending hc rest x1
      simp only [h, decide_True] at hle
      rw [List.take_append_of_le_length (by simp; omega), List.take_of_length_le (by simp)]
      apply sortedBy_of_chain
      rw [List.chain'_reverse]
      simp only [List.take_succ_cons]
      exact List.Chain.cons ((hc x1 x0).1 h) hd
    · simp only [h, decide_False, Bool.false_eq_true, if_false]
      have ha := countRun_ascending hc rest x1
      apply sortedBy_of_chain
      simp only [List.take_succ_cons]
      exact List.Chain.cons ((hc x1 x0).2 h) ha

theorem binaryInsertionSort_perm (cmp : α → α → Int) :
    ∀ (todo run : List α), (binaryInsertionSort cmp run todo).Perm (run ++ todo) := by
  intro todo
  induction todo with
  | nil => intro run; simp [binaryInsertionSort]
  | cons pivot todo ih =>
    intro run
    simp only [binaryInsertionSort]
    refine (ih _).trans ?_
    have h1 : (List.take (bisect (fun x => !decide (cmp pivot x < 0)) run run.length 0 run.length)
        run ++ pivot :: List.drop
          (bisect (fun x => !decide (cmp pivot x < 0)) run run.length 0 run.length) run).Perm
        (run ++ [pivot]) := by
      refine List.Perm.trans List.perm_middle ?_
      rw [List.take_append_drop]
      exact (List.perm_append_singleton pivot run).symm
    simpa using List.Perm.append_right todo h1

/-- `BinaryInsertionSort` extends a sorted run to a sorted run. -/
theorem binaryInsertionSort_sorted {cmp : α → α → Int} {k : α → Nat} (hc : Respects cmp k) :
    ∀ (todo run : List α), SortedBy k run → SortedBy k (binaryInsertionSort cmp run todo) := by
  intro todo
  induction todo with
  | nil => intro run hs; simpa [binaryInsertionSort] using hs
  | cons pivot todo ih =>
    intro run hs
    simp only [binaryInsertionSort]
    apply ih
    have hb := bisect_spec (splits_gallopRight hc pivot) hs run.length 0 run.length
      (by omega) le_rfl (by simp) (by simp)
    exact sortedBy_insert hs pivot _ hb.1 hb.2

theorem getLast?_drop_mem {a : List α} {n : Nat} {z : α} (h : z ∈ (a.drop n).getLast?) :
    z ∈ a.getLast? := by
  by_cases hn : n < a.length
  · rw [List.getLast?_drop] at h
    simp only [Nat.not_le.mpr hn, if_false] at h
    exact h
  · rw [List.drop_of_length_le (by omega)] at h
    simp at h

theorem LowInv.takeAs {k : α → Nat} {out a b : List α} (h : LowInv k out a b) (n : Nat)
    (hn : ∀ x ∈ a.take n, ∀ y ∈ b, k x ≤ k y) : LowInv k (out ++ a.take n) (a.drop n) b where
  out_sorted := sortedBy_append.mpr ⟨h.out_sorted, sortedBy_take h.a_sorted n,
    fun x hx y hy => h.out_le_a x hx y (List.mem_of_mem_take hy)⟩
  a_sorted := sortedBy_drop h.a_sorted n
  b_sorted := h.b_sorted
  out_le_a := by
    intro x hx y hy
    rcases List.mem_append.mp hx with hx | hx
    · exact h.out_le_a x hx y (List.mem_of_mem_drop hy)
    · exact sortedBy_take_le_drop h.a_sorted n x hx y hy
  out_le_b := by
    intro x hx y hy
    rcases List.mem_append.mp hx with hx | hx
    · exact h.out_le_b x hx y hy
    · exact hn x hx y hy
  b_le_last := fun z hz y hy => h.b_le_last z (getLast?_drop_mem hz) y hy

theorem LowInv.takeBs {k : α → Nat} {out a b : List α} (h : LowInv k out a b) (n : Nat)
    (hn : ∀ x ∈ b.take n, ∀ y ∈ a, k x ≤ k y) : LowInv k (out ++ b.take n) a (b.drop n) where
  out_sorted := sortedBy_append.mpr ⟨h.out_sorted, sortedBy_take h.b_sorted n,
    fun x hx y hy => h.out_le_b x hx y (List.mem_of_mem_take hy)⟩
  a_sorted := h.a_sorted
  b_sorted := sortedBy_drop h.b_sorted n
  out_le_a := by
    intro x hx y hy
    rcases List.mem_append.mp hx with hx | hx
    · exact h.out_le_a x hx y hy
    · exact hn x hx y hy
  out_le_b := by
    intro x hx y hy
    rcases List.mem_append.mp hx with hx | hx
    · exact h.out_le_b x hx y (List.mem_of_mem_drop hy)
    · exact sortedBy_take_le_drop h.b_sorted n x hx y hy
  b_le_last := fun z hz y hy => h.b_le_last z hz y (List.mem_of_mem_drop hy)

theorem LowInv.takeA {k : α → Nat} {out a1 b : List α} {x : α} (h : LowInv k out (x :: a1) b)
    (hx : ∀ y ∈ b, k x ≤ k y) : LowInv k (out ++ [x]) a1 b := by
  have := h.takeAs 1 (by simpa using hx)
  simpa using this

theorem LowInv.takeB {k : α → Nat} {out a b1 : List α} {y : α} (h : LowInv k out a (y :: b1))
    (hy : ∀ x ∈ a, k y ≤ k x) : LowInv k (out ++ [y]) a b1 := by
  have := h.takeBs 1 (by simpa using hy)
  simpa using this

theorem LowInv.head_a_le {k : α → Nat} {out a1 b : List α} {x : α}
    (h : LowInv k out (x :: a1) b) : ∀ y ∈ x :: a1, k x ≤ k y := by
  intro y hy
  rcases List.mem_cons.mp hy with rfl | hy
  · exact le_rfl
  · exact (sortedBy_cons.mp h.a_sorted).1 y hy

theorem LowInv.head_b_le {k : α → Nat} {out a b1 : List α} {y : α}
    (h : LowInv k out a (y :: b1)) : ∀ x ∈ y :: b1, k y ≤ k x := by
  intro x hx
  rcases List.mem_cons.mp hx with rfl | hx
  · exact le_rfl
  · exact (sortedBy_cons.mp h.b_sorted).1 x hx

/-- The label `Succeed`: one of the two runs is used up. -/
theorem LowInv.succeed {k : α → Nat} {out a b : List α} (h : LowInv k out a b)
    (hab : a = [] ∨ b = []) : SortedBy k (out ++ a ++ b) := by
  rcases hab with rfl | rfl
  · simpa using sortedBy_append.mpr ⟨h.out_sorted, h.b_sorted, h.out_le_b⟩
  · simpa using sortedBy_append.mpr ⟨h.out_sorted, h.a_sorted, h.out_le_a⟩

/-- The label `CopyB`: one element of run A is left and goes behind the rest of B. -/
theorem LowInv.copyB {k : α → Nat} {out a b : List α} (h : LowInv k out a b)
    (ha : a.length = 1) : SortedBy k (out ++ b ++ a) := by
  obtain ⟨z, rfl⟩ := List.length_eq_one.mp ha
  refine sortedBy_append.mpr ⟨sortedBy_append.mpr ⟨h.out_sorted, h.b_sorted, h.out_le_b⟩,
    h.a_sorted, ?_⟩
  intro x hx y hy
  rcases List.mem_append.mp hx with hx | hx
  · exact h.out_le_a x hx y hy
  · rw [List.mem_singleton.mp hy]
    exact h.b_le_last z (by simp) x hx

theorem length_zero_nil {l : List α} (h : l.length = 0) : l = [] := List.length_eq_zero.mp h

theorem mergeLowLoop_perm (cmp : α → α → Int) :
    ∀ (fuel : Nat) (g f : Bool) (out a b : List α) (mg wA wB : Nat),
      (mergeLowLoop cmp fuel g f out a b mg wA wB).1.Perm (out ++ a ++ b) := by
  intro fuel
  induction fuel with
  | zero => intro g f out a b mg wA wB; simp [mergeLowLoop]
  | succ fuel ih =>
    intro g f out a b mg wA wB
    cases g
    · simp only [mergeLowLoop]
      split
      · split_ifs with h1 h2 h3 h4 h5
        all_goals first
          | refine (ih _ _ _ _ _ _ _ _).trans ?_
          | skip
        all_goals first
          | rw [length_zero_nil h2]
          | skip
        all_goals apply Multiset.coe_eq_coe.mp
        all_goals simp only [← Multiset.coe_add, ← Multiset.cons_coe, ← Multiset.singleton_add,
          Multiset.coe_nil]
        all_goals abel
      · exact List.Perm.refl _
    · simp only [mergeLowLoop]
      split_ifs with h0
      · split
        · simp
        · rename_i y b1
          have ea := (List.take_append_drop (gallopRight cmp y a 0) a).symm
          generalize a.take (gallopRight cmp y a 0) = t at ea ⊢
          generalize a.drop (gallopRight cmp y a 0) = d at ea ⊢
          subst ea
          split_ifs with h1 h2 h3
          · apply Multiset.coe_eq_coe.mp
            simp only [← Multiset.coe_add, ← Multiset.cons_coe, ← Multiset.singleton_add,
              Multiset.coe_nil]
            abel
          · rw [length_zero_nil h2.2]
            apply Multiset.coe_eq_coe.mp
            simp only [← Multiset.coe_add, ← Multiset.cons_coe, ← Multiset.singleton_add,
              Multiset.coe_nil]
            abel
          · rw [length_zero_nil h3]
            apply Multiset.coe_eq_coe.mp
            simp only [← Multiset.coe_add, ← Multiset.cons_coe, ← Multiset.singleton_add,
              Multiset.coe_nil]
            abel
          · split
            · apply Multiset.coe_eq_coe.mp
              simp only [← Multiset.coe_add, ← Multiset.cons_coe, ← Multiset.singleton_add,
                Multiset.coe_nil]
              abel
            · rename_i x a2
              have eb := (List.take_append_drop (gallopLeft cmp x b1 0) b1).symm
              generalize b1.take (gallopLeft cmp x b1 0) = tb at eb ⊢
              generalize b1.drop (gallopLeft cmp x b1 0) = db at eb ⊢
              subst eb
              split_ifs with h4 h5
              all_goals first
                | refine (ih _ _ _ _ _ _ _ _).trans ?_
                | skip
              all_goals first
                | rw [length_zero_nil h4.2]
                | skip
              all_goals apply Multiset.coe_eq_coe.mp
              all_goals simp only [← Multiset.coe_add, ← Multiset.cons_coe,
                ← Multiset.singleton_add, Multiset.coe_nil]
              all_goals abel
      · exact ih _ _ _ _ _ _ _ _

theorem mergeLow_perm (cmp : α → α → Int) (a b : List α) (mg : Nat) :
    (mergeLow cmp a b mg).1.Perm (a ++ b) := by
  unfold mergeLow
  split
  · simp
  · rename_i y b1
    split_ifs with h1 h2
    all_goals first
      | refine (mergeLowLoop_perm cmp _ _ _ _ _ _ _ _ _).trans ?_
      | skip
    all_goals first
      | rw [length_zero_nil h1]
      | skip
    all_goals apply Multiset.coe_eq_coe.mp
    all_goals simp only [← Multiset.coe_add, ← Multiset.cons_coe, ← Multiset.singleton_add,
      Multiset.coe_nil]
    all_goals abel

theorem mergeLowLoop_sorted {cmp : α → α → Int} {k : α → Nat} (hc : Respects cmp k) :
    ∀ (fuel : Nat) (g f : Bool) (out a b : List α) (mg wA wB : Nat),
      LowInv k out a b →
      2 * (a.length + b.length) + (if g = true ∧ f = false then 1 else 0) < fuel →
      SortedBy k (mergeLowLoop cmp fuel g f out a b mg wA wB).1 := by
  intro fuel
  induction fuel with
  | zero => intro g f out a b mg wA wB _ hf; omega
  | succ fuel ih =>
    intro g f out a b mg wA wB h hf
    cases g
    · simp only [mergeLowLoop]
      simp only [Bool.false_eq_true, false_and, if_false, Nat.add_zero] at hf
      split
      · rename_i x a1 y b1
        simp only [List.length_cons] at hf
        by_cases hyx : cmp y x < 0
        · simp only [hyx, if_true]
          have inv1 : LowInv k (out ++ [y]) (x :: a1) b1 :=
            h.takeB (fun z hz => le_trans ((hc y x).1 hyx) (h.head_a_le z hz))
          split_ifs with h2 h3
          · have := inv1.succeed (Or.inr (List.length_eq_zero.mp h2))
            rw [List.length_eq_zero.mp h2] at this
            simpa using this
          · exact ih _ _ _ _ _ _ _ _ inv1 (by simp; omega)
          · exact ih _ _ _ _ _ _ _ _ inv1 (by simp; omega)
        · simp only [hyx, if_false]
          have inv1 : LowInv k (out ++ [x]) a1 (y :: b1) :=
            h.takeA (fun z hz => le_trans ((hc y x).2 hyx) (h.head_b_le z hz))
          split_ifs with h2 h3
          · exact inv1.copyB h2
          · exact ih _ _ _ _ _ _ _ _ inv1 (by simp; omega)
          · exact ih _ _ _ _ _ _ _ _ inv1 (by simp; omega)
      · rename_i hne
        have hab : a = [] ∨ b = [] := by
          cases a with
          | nil => exact Or.inl rfl
          | cons x a1 =>
            cases b with
            | nil => exact Or.inr rfl
            | cons y b1 => exact absurd rfl (hne x a1 y b1 rfl)
        exact h.succeed hab
    · simp only [mergeLowLoop]
      split_ifs with h0
      · split
        · simpa using h.succeed (Or.inr rfl)
        · rename_i y b1
          have sA := gallopRight_spec hc y h.a_sorted 0 (fun hne => List.length_pos.mpr hne)
          have inv1 : LowInv k (out ++ a.take (gallopRight cmp y a 0))
              (a.drop (gallopRight cmp y a 0)) (y :: b1) :=
            h.takeAs _ (fun x hx z hz => le_trans (sA.1 x hx) (h.head_b_le z hz))
          have hla : (a.drop (gallopRight cmp y a 0)).length ≤ a.length := by
            rw [List.length_drop]; omega
          simp only [List.length_cons] at hf
          generalize a.drop (gallopRight cmp y a 0) = a1 at inv1 sA hla ⊢
          generalize out ++ a.take (gallopRight cmp y a 0) = out1 at inv1 ⊢
          split_ifs with h1 h2 h3
          · exact inv1.copyB h1.2
          · have := inv1.succeed (Or.inl (List.length_eq_zero.mp h2.2))
            rw [List.length_eq_zero.mp h2.2] at this
            simpa using this
          · have inv2 : LowInv k (out1 ++ [y]) a1 b1 := inv1.takeB sA.2
            have := inv2.succeed (Or.inr (List.length_eq_zero.mp h3))
            rw [List.length_eq_zero.mp h3] at this
            simpa using this
          · have inv2 : LowInv k (out1 ++ [y]) a1 b1 := inv1.takeB sA.2
            split
            · simpa using inv2.succeed (Or.inl rfl)
            · rename_i x a2
              have sB := gallopLeft_spec hc x inv2.b_sorted 0
                (fun hne => List.length_pos.mpr hne)
              have inv3 : LowInv k (out1 ++ [y] ++ b1.take (gallopLeft cmp x b1 0)) (x :: a2)
                  (b1.drop (gallopLeft cmp x b1 0)) :=
                inv2.takeBs _ (fun z hz w hw => le_trans (sB.1 z hz) (inv2.head_a_le w hw))
              have hlb : (b1.drop (gallopLeft cmp x b1 0)).length ≤ b1.length := by
                rw [List.length_drop]; omega
              simp only [List.length_cons] at hla
              generalize b1.drop (gallopLeft cmp x b1 0) = b2 at inv3 sB hlb ⊢
              generalize out1 ++ [y] ++ b1.take (gallopLeft cmp x b1 0) = out2 at inv3 ⊢
              split_ifs with h4 h5
              · have := inv3.succeed (Or.inr (List.length_eq_zero.mp h4.2))
                rw [List.length_eq_zero.mp h4.2] at this
                simpa using this
              · exact (inv3.takeA sB.2).copyB h5
              · exact ih _ _ _ _ _ _ _ _ (inv3.takeA sB.2) (by simp; omega)
      · have hf0 : f = false := by
          cases f
          · rfl
          · exact absurd (Or.inr (Or.inr rfl)) h0
        subst hf0
        exact ih _ _ _ _ _ _ _ _ h (by simp at hf ⊢; omega)

theorem mergeLow_sorted {cmp : α → α → Int} {k : α → Nat} (hc : Respects cmp k)
    (a b : List α) (mg : Nat) (ha : SortedBy k a) (hb : SortedBy k b)
    (hhead : ∀ y ∈ b.head?, ∀ x ∈ a, k y ≤ k x)
    (hlast : ∀ z ∈ a.getLast?, ∀ y ∈ b, k y ≤ k z) :
    SortedBy k (mergeLow cmp a b mg).1 := by
  unfold mergeLow
  split
  · exact ha
  · rename_i y b1
    have h0 : LowInv k [] a (y :: b1) :=
      ⟨List.Pairwise.nil, ha, hb, by simp, by simp, hlast⟩
    have inv1 : LowInv k ([] ++ [y]) a b1 := h0.takeB (hhead y (by simp))
    simp only [List.nil_append] at inv1
    split_ifs with h1 h2
    · have := inv1.succeed (Or.inr (List.length_eq_zero.mp h1))
      rw [List.length_eq_zero.mp h1] at this
      simpa using this
    · exact inv1.copyB h2
    · exact mergeLowLoop_sorted hc _ _ _ _ _ _ _ _ _ inv1 (by simp)

theorem eq_dropLast_append {l : List α} {x : α} (h : l.getLast? = some x) :
    l = l.dropLast ++ [x] :=
  (List.dropLast_append_getLast? x (by simp [h])).symm

theorem head?_take_mem {b : List α} {n : Nat} {z : α} (h : z ∈ (b.take n).head?) :
    z ∈ b.head? := by
  cases b with
  | nil => simp at h
  | cons y b1 =>
    cases n with
    | zero => simp at h
    | succ n => simpa using h

theorem sortedBy_le_last {k : α → Nat} {a : List α} {x : α} (hs : SortedBy k a)
    (hx : a.getLast? = some x) : ∀ w ∈ a, k w ≤ k x := by
  have e := eq_dropLast_append hx
  rw [e] at hs
  intro w hw
  rw [e] at hw
  rcases List.mem_append.mp hw with hw | hw
  · exact (sortedBy_append.mp hs).2.2 w hw x (by simp)
  · rw [List.mem_singleton.mp hw]

theorem HighInv.dropAs {k : α → Nat} {a b out : List α} (h : HighInv k a b out) (n : Nat)
    (hn : ∀ x ∈ a.drop n, ∀ y ∈ b, k y ≤ k x) : HighInv k (a.take n) b (a.drop n ++ out) where
  a_sorted := sortedBy_take h.a_sorted n
  b_sorted := h.b_sorted
  out_sorted := sortedBy_append.mpr ⟨sortedBy_drop h.a_sorted n, h.out_sorted,
    fun x hx y hy => h.a_le_out x (List.mem_of_mem_drop hx) y hy⟩
  a_le_out := by
    intro x hx y hy
    rcases List.mem_append.mp hy with hy | hy
    · exact sortedBy_take_le_drop h.a_sorted n x hx y hy
    · exact h.a_le_out x (List.mem_of_mem_take hx) y hy
  b_le_out := by
    intro x hx y hy
    rcases List.mem_append.mp hy with hy | hy
    · exact hn y hy x hx
    · exact h.b_le_out x hx y hy
  head_le_a := fun z hz x hx => h.head_le_a z hz x (List.mem_of_mem_take hx)

theorem HighInv.dropBs {k : α → Nat} {a b out : List α} (h : HighInv k a b out) (n : Nat)
    (hn : ∀ y ∈ b.drop n, ∀ x ∈ a, k x ≤ k y) : HighInv k a (b.take n) (b.drop n ++ out) where
  a_sorted := h.a_sorted
  b_sorted := sortedBy_take h.b_sorted n
  out_sorted := sortedBy_append.mpr ⟨sortedBy_drop h.b_sorted n, h.out_sorted,
    fun x hx y hy => h.b_le_out x (List.mem_of_mem_drop hx) y hy⟩
  a_le_out := by
    intro x hx y hy
    rcases List.mem_append.mp hy with hy | hy
    · exact hn y hy x hx
    · exact h.a_le_out x hx y hy
  b_le_out := by
    intro x hx y hy
    rcases List.mem_append.mp hy with hy | hy
    · exact sortedBy_take_le_drop h.b_sorted n x hx y hy
    · exact h.b_le_out x (List.mem_of_mem_take hx) y hy
  head_le_a := fun z hz x hx => h.head_le_a z (head?_take_mem hz) x hx

theorem HighInv.dropA {k : α → Nat} {a b out : List α} {x : α} (h : HighInv k a b out)
    (hx : a.getLast? = some x) (hb : ∀ y ∈ b, k y ≤ k x) :
    HighInv k a.dropLast b (x :: out) := by
  have e := eq_dropLast_append hx
  have := h.dropAs (a.length - 1) (by
    intro z hz y hy
    rw [e] at hz
    simp at hz
    rw [hz]; exact hb y hy)
  rw [← List.dropLast_eq_take] at this
  have e2 : a.drop (a.length - 1) = [x] := by
    conv_lhs => rw [e]
    simp
  rw [e2] at this
  simpa using this

theorem HighInv.dropB {k : α → Nat} {a b out : List α} {y : α} (h : HighInv k a b out)
    (hy : b.getLast? = some y) (ha : ∀ x ∈ a, k x ≤ k y) :
    HighInv k a b.dropLast (y :: out) := by
  have e := eq_dropLast_append hy
  have := h.dropBs (b.length - 1) (by
    intro z hz x hx
    rw [e] at hz
    simp at hz
    rw [hz]; exact ha x hx)
  rw [← List.dropLast_eq_take] at this
  have e2 : b.drop (b.length - 1) = [y] := by
    conv_lhs => rw [e]
    simp
  rw [e2] at this
  simpa using this

/-- The label `Succeed` of `MergeHigh`: one of the two runs is used up. -/
theorem HighInv.finish {k : α → Nat} {a b out : List α} (h : HighInv k a b out)
    (hab : a = [] ∨ b = []) : SortedBy k (a ++ b ++ out) := by
  rcases hab with rfl | rfl
  · simpa using sortedBy_append.mpr ⟨h.b_sorted, h.out_sorted, h.b_le_out⟩
  · simpa using sortedBy_append.mpr ⟨h.a_sorted, h.out_sorted, h.a_le_out⟩

/-- The label `CopyA`: one element of run B is left and goes in front of the rest of A. -/
theorem HighInv.copyA {k : α → Nat} {a b out : List α} (h : HighInv k a b out)
    (hb : b.length = 1) : SortedBy k (b ++ a ++ out) := by
  obtain ⟨z, rfl⟩ := List.length_eq_one.mp hb
  refine sortedBy_append.mpr ⟨sortedBy_append.mpr ⟨h.b_sorted, h.a_sorted, ?_⟩,
    h.out_sorted, ?_⟩
  · intro x hx y hy
    rw [List.mem_singleton.mp hx]
    exact h.head_le_a z (by simp) y hy
  · intro x hx y hy
    rcases List.mem_append.mp hx with hx | hx
    · exact h.b_le_out x hx y hy
    · exact h.a_le_out x hx y hy

theorem mergeHighLoop_perm (cmp : α → α → Int) :
    ∀ (fuel : Nat) (g f : Bool) (a b out : List α) (mg wA wB : Nat),
      (mergeHighLoop cmp fuel g f a b out mg wA wB).1.Perm (a ++ b ++ out) := by
  intro fuel
  induction fuel with
  | zero => intro g f a b out mg wA wB; simp [mergeHighLoop]
  | succ fuel ih =>
    intro g f a b out mg wA wB
    cases g
    · simp only [mergeHighLoop]
      split
      · rename_i x y hx hy
        have ea := eq_dropLast_append hx
        have eb := eq_dropLast_append hy
        generalize a.dropLast = a' at ea ⊢
        generalize b.dropLast = b' at eb ⊢
        subst ea
        subst eb
        split_ifs with h1 h2 h3 h4 h5
        all_goals first
          | refine (ih _ _ _ _ _ _ _ _).trans ?_
          | skip
        all_goals first
          | rw [List.length_eq_zero.mp h2]
          | skip
        all_goals apply Multiset.coe_eq_coe.mp
        all_goals simp only [← Multiset.coe_add, ← Multiset.cons_coe, ← Multiset.singleton_add,
          Multiset.coe_nil]
        all_goals abel
      · exact List.Perm.refl _
    · simp only [mergeHighLoop]
      split
      · split
        · rename_i hb
          rw [List.getLast?_eq_none_iff.mp hb]
          simp
        · rename_i y hy
          have eb := eq_dropLast_append hy
          generalize b.dropLast = b' at eb ⊢
          subst eb
          have ea := (List.take_append_drop (gallopRight cmp y a (a.length - 1)) a).symm
          generalize gallopRight cmp y a (a.length - 1) = n at ea ⊢
          generalize a.length - n = wA1
          generalize a.take n = t at ea ⊢
          generalize a.drop n = d at ea ⊢
          subst ea
          by_cases h1 : 0 < wA1 ∧ t.length = 0
          · rw [if_pos h1, List.length_eq_zero.mp h1.2]
            apply Multiset.coe_eq_coe.mp
            simp only [← Multiset.coe_add, ← Multiset.cons_coe, ← Multiset.singleton_add,
              Multiset.coe_nil]
            abel
          rw [if_neg h1]
          by_cases h2 : b'.length = 1
          · rw [if_pos h2]
            apply Multiset.coe_eq_coe.mp
            simp only [← Multiset.coe_add, ← Multiset.cons_coe, ← Multiset.singleton_add,
              Multiset.coe_nil]
            abel
          rw [if_neg h2]
          split
          · rename_i ht
            rw [List.getLast?_eq_none_iff.mp ht]
            apply Multiset.coe_eq_coe.mp
            simp only [← Multiset.coe_add, ← Multiset.cons_coe, ← Multiset.singleton_add,
              Multiset.coe_nil]
            abel
          · rename_i x hx
            have et := eq_dropLast_append hx
            generalize t.dropLast = t' at et ⊢
            subst et
            have eb := (List.take_append_drop
              (gallopLeft cmp x b' (b'.length - 1)) b').symm
            generalize gallopLeft cmp x b' (b'.length - 1) = m at eb ⊢
            generalize b'.length - m = wB1
            generalize b'.take m = tb at eb ⊢
            generalize b'.drop m = db at eb ⊢
            subst eb
            by_cases h4 : 0 < wB1 ∧ tb.length = 1
            · rw [if_pos h4]
              apply Multiset.coe_eq_coe.mp
              simp only [← Multiset.coe_add, ← Multiset.cons_coe, ← Multiset.singleton_add,
                Multiset.coe_nil]
              abel
            rw [if_neg h4]
            by_cases h5 : 0 < wB1 ∧ tb.length = 0
            · rw [if_pos h5, List.length_eq_zero.mp h5.2]
              apply Multiset.coe_eq_coe.mp
              simp only [← Multiset.coe_add, ← Multiset.cons_coe, ← Multiset.singleton_add,
                Multiset.coe_nil]
              abel
            rw [if_neg h5]
            by_cases h6 : t'.length = 0
            · rw [if_pos h6, List.length_eq_zero.mp h6]
              apply Multiset.coe_eq_coe.mp
              simp only [← Multiset.coe_add, ← Multiset.cons_coe, ← Multiset.singleton_add,
                Multiset.coe_nil]
              abel
            rw [if_neg h6]
            refine (ih _ _ _ _ _ _ _ _).trans ?_
            apply Multiset.coe_eq_coe.mp
            simp only [← Multiset.coe_add, ← Multiset.cons_coe, ← Multiset.singleton_add,
              Multiset.coe_nil]
            abel
      · exact ih _ _ _ _ _ _ _ _

theorem mergeHigh_perm (cmp : α → α → Int) (a b : List α) (mg : Nat) :
    (mergeHigh cmp a b mg).1.Perm (a ++ b) := by
  unfold mergeHigh
  split
  · rename_i ha
    rw [List.getLast?_eq_none_iff.mp ha]
    simp
  · rename_i x hx
    have ea := eq_dropLast_append hx
    generalize a.dropLast = a' at ea ⊢
    subst ea
    split_ifs with h1 h2
    all_goals first
      | refine (mergeHighLoop_perm cmp _ _ _ _ _ _ _ _ _).trans ?_
      | skip
    all_goals first
      | rw [List.length_eq_zero.mp h1]
      | skip
    all_goals apply Multiset.coe_eq_coe.mp
    all_goals simp only [← Multiset.coe_add, ← Multiset.cons_coe, ← Multiset.singleton_add,
      Multiset.coe_nil]
    all_goals abel

theorem length_dropLast_lt {l : List α} {x : α} (h : l.getLast? = some x) :
    l.dropLast.length + 1 = l.length := by
  have e := eq_dropLast_append h
  conv_rhs => rw [e]
  simp

theorem mergeHighLoop_sorted {cmp : α → α → Int} {k : α → Nat} (hc : Respects cmp k) :
    ∀ (fuel : Nat) (g f : Bool) (a b out : List α) (mg wA wB : Nat),
      HighInv k a b out →
      2 * (a.length + b.length) + (if g = true ∧ f = false then 1 else 0) < fuel →
      SortedBy k (mergeHighLoop cmp fuel g f a b out mg wA wB).1 := by
  intro fuel
  induction fuel with
  | zero => intro g f a b out mg wA wB _ hf; omega
  | succ fuel ih =>
    intro g f a b out mg wA wB h hf
    cases g
    · simp only [mergeHighLoop]
      simp only [Bool.false_eq_true, false_and, if_false, Nat.add_zero] at hf
      split
      · rename_i x y hx hy
        have hla := length_dropLast_lt hx
        have hlb := length_dropLast_lt hy
        by_cases hyx : cmp y x < 0
        · rw [if_pos hyx]
          have inv1 : HighInv k a.dropLast b (x :: out) :=
            h.dropA hx (fun z hz => le_trans (sortedBy_le_last h.b_sorted hy z hz)
              ((hc y x).1 hyx))
          by_cases h2 : a.dropLast.length = 0
          · rw [if_pos h2]
            have := inv1.finish (Or.inl (List.length_eq_zero.mp h2))
            rw [List.length_eq_zero.mp h2] at this
            simpa using this
          rw [if_neg h2]
          split_ifs
          · exact ih _ _ _ _ _ _ _ _ inv1 (by simp; omega)
          · exact ih _ _ _ _ _ _ _ _ inv1 (by simp; omega)
        · rw [if_neg hyx]
          have inv1 : HighInv k a b.dropLast (y :: out) :=
            h.dropB hy (fun z hz => le_trans (sortedBy_le_last h.a_sorted hx z hz)
              ((hc y x).2 hyx))
          by_cases h2 : b.dropLast.length = 1
          · rw [if_pos h2]
            exact inv1.copyA h2
          rw [if_neg h2]
          split_ifs
          · exact ih _ _ _ _ _ _ _ _ inv1 (by simp; omega)
          · exact ih _ _ _ _ _ _ _ _ inv1 (by simp; omega)
      · rename_i hne
        have hab : a = [] ∨ b = [] := by
          rcases List.eq_nil_or_concat a with ha | ⟨a', x, ha⟩
          · exact Or.inl ha
          · rcases List.eq_nil_or_concat b with hb | ⟨b', y, hb⟩
            · exact Or.inr hb
            · exact absurd (by simp [hb]) (hne x y (by simp [ha]))
        exact h.finish hab
    · simp only [mergeHighLoop]
      split
      · split
        · rename_i hb
          have := h.finish (Or.inr (List.getLast?_eq_none_iff.mp hb))
          rw [List.getLast?_eq_none_iff.mp hb] at this
          simpa using this
        · rename_i y hy
          have hlb := length_dropLast_lt hy
          have sA := gallopRight_spec hc y h.a_sorted (a.length - 1)
            (fun hne => by have := List.length_pos.mpr hne; omega)
          have inv1 : HighInv k (a.take (gallopRight cmp y a (a.length - 1))) b
              (a.drop (gallopRight cmp y a (a.length - 1)) ++ out) :=
            h.dropAs _ (fun x hx z hz => le_trans (sortedBy_le_last h.b_sorted hy z hz)
              (sA.2 x hx))
          have hla : (a.take (gallopRight cmp y a (a.length - 1))).length ≤ a.length := by
            rw [List.length_take]; omega
          generalize a.length - gallopRight cmp y a (a.length - 1) = wA1
          generalize a.take (gallopRight cmp y a (a.length - 1)) = a1 at inv1 sA hla ⊢
          generalize a.drop (gallopRight cmp y a (a.length - 1)) ++ out = out1 at inv1 ⊢
          by_cases h1 : 0 < wA1 ∧ a1.length = 0
          · rw [if_pos h1]
            have := inv1.finish (Or.inl (List.length_eq_zero.mp h1.2))
            rw [List.length_eq_zero.mp h1.2] at this
            simpa using this
          rw [if_neg h1]
          have inv2 : HighInv k a1 b.dropLast (y :: out1) := inv1.dropB hy sA.1
          by_cases h2 : b.dropLast.length = 1
          · rw [if_pos h2]
            exact inv2.copyA h2
          rw [if_neg h2]
          split
          · rename_i ht
            have := inv2.finish (Or.inl (List.getLast?_eq_none_iff.mp ht))
            rw [List.getLast?_eq_none_iff.mp ht] at this
            simpa using this
          · rename_i x hx
            have hla1 := length_dropLast_lt hx
            generalize b.dropLast = b1 at inv2 hlb h2 ⊢
            have sB := gallopLeft_spec hc x inv2.b_sorted (b1.length - 1)
              (fun hne => by have := List.length_pos.mpr hne; omega)
            have inv3 : HighInv k a1 (b1.take (gallopLeft cmp x b1 (b1.length - 1)))
                (b1.drop (gallopLeft cmp x b1 (b1.length - 1)) ++ (y :: out1)) :=
              inv2.dropBs _ (fun z hz w hw => le_trans (sortedBy_le_last inv2.a_sorted hx w hw)
                (sB.2 z hz))
            have hlb2 : (b1.take (gallopLeft cmp x b1 (b1.length - 1))).length ≤ b1.length := by
              rw [List.length_take]; omega
            generalize b1.length - gallopLeft cmp x b1 (b1.length - 1) = wB1
            generalize b1.take (gallopLeft cmp x b1 (b1.length - 1)) = b2 at inv3 sB hlb2 ⊢
            generalize b1.drop (gallopLeft cmp x b1 (b1.length - 1)) ++ (y :: out1) = out2
              at inv3 ⊢
            by_cases h4 : 0 < wB1 ∧ b2.length = 1
            · rw [if_pos h4]
              exact inv3.copyA h4.2
            rw [if_neg h4]
            by_cases h5 : 0 < wB1 ∧ b2.length = 0
            · rw [if_pos h5]
              have := inv3.finish (Or.inr (List.length_eq_zero.mp h5.2))
              rw [List.length_eq_zero.mp h5.2] at this
              simpa using this
            rw [if_neg h5]
            have inv4 : HighInv k a1.dropLast b2 (x :: out2) := inv3.dropA hx sB.1
            by_cases h6 : a1.dropLast.length = 0
            · rw [if_pos h6]
              have := inv4.finish (Or.inl (List.length_eq_zero.mp h6))
              rw [List.length_eq_zero.mp h6] at this
              simpa using this
            rw [if_neg h6]
            exact ih _ _ _ _ _ _ _ _ inv4 (by simp at hf ⊢; omega)
      · rename_i h0
        have hf0 : f = false := by
          cases f
          · rfl
          · exact absurd (Or.inr (Or.inr rfl)) h0
        subst hf0
        exact ih _ _ _ _ _ _ _ _ h (by simp at hf ⊢; omega)

theorem mergeHigh_sorted {cmp : α → α → Int} {k : α → Nat} (hc : Respects cmp k)
    (a b : List α) (mg : Nat) (ha : SortedBy k a) (hb : SortedBy k b)
    (hhead : ∀ y ∈ b.head?, ∀ x ∈ a, k y ≤ k x)
    (hlast : ∀ z ∈ a.getLast?, ∀ y ∈ b, k y ≤ k z) :
    SortedBy k (mergeHigh cmp a b mg).1 := by
  unfold mergeHigh
  split
  · exact hb
  · rename_i x hx
    have hla := length_dropLast_lt hx
    have h0 : HighInv k a b [] :=
      ⟨ha, hb, List.Pairwise.nil, by simp, by simp, hhead⟩
    have inv1 : HighInv k a.dropLast b [x] := h0.dropA hx (hlast x (by simp [hx]))
    by_cases h1 : a.dropLast.length = 0
    · rw [if_pos h1]
      have := inv1.finish (Or.inl (List.length_eq_zero.mp h1))
      rw [List.length_eq_zero.mp h1] at this
      simpa using this
    rw [if_neg h1]
    by_cases h2 : b.length = 1
    · rw [if_pos h2]
      exact inv1.copyA h2
    rw [if_neg h2]
    exact mergeHighLoop_sorted hc _ _ _ _ _ _ _ _ _ inv1 (by simp; omega)

theorem sortedBy_head_le {k : α → Nat} {b : List α} (hs : SortedBy k b) :
    ∀ z ∈ b.head?, ∀ y ∈ b, k z ≤ k y := by
  cases b with
  | nil => simp
  | cons y b1 =>
    intro z hz w hw
    simp at hz
    subst hz
    rcases List.mem_cons.mp hw with rfl | hw
    · exact le_rfl
    · exact (sortedBy_cons.mp hs).1 w hw

theorem mergeRuns_perm (cmp : α → α → Int) (a b : List α) (mg : Nat) :
    (mergeRuns cmp a b mg).1.Perm (a ++ b) := by
  unfold mergeRuns
  split
  · simp
  · rename_i keyRight b'
    dsimp only
    split
    · exact List.Perm.refl _
    · rename_i keyLeft hk
      generalize gallopLeft cmp keyLeft (keyRight :: b') ((keyRight :: b').length - 1) = lB
      generalize gallopRight cmp keyRight a 0 = n
      generalize keyRight :: b' = b
      by_cases h0 : lB = 0
      · rw [if_pos h0]
      rw [if_neg h0]
      have hm : (if (a.drop n).length ≤ lB then mergeLow cmp (a.drop n) (b.take lB) mg
          else mergeHigh cmp (a.drop n) (b.take lB) mg).1.Perm (a.drop n ++ b.take lB) := by
        split_ifs
        · exact mergeLow_perm cmp _ _ _
        · exact mergeHigh_perm cmp _ _ _
      refine ((hm.append_left (a.take n)).append_right (b.drop lB)).trans ?_
      rw [← List.append_assoc, List.take_append_drop, List.append_assoc, List.take_append_drop]

/-- Merging two sorted runs gives a sorted run. -/
theorem mergeRuns_sorted {cmp : α → α → Int} {k : α → Nat} (hc : Respects cmp k)
    (a b : List α) (mg : Nat) (ha : SortedBy k a) (hb : SortedBy k b) :
    SortedBy k (mergeRuns cmp a b mg).1 := by
  unfold mergeRuns
  split
  · exact ha
  · rename_i keyRight b'
    have sA := gallopRight_spec hc keyRight ha 0 (fun hne => List.length_pos.mpr hne)
    have hb0 : ∀ y ∈ keyRight :: b', k keyRight ≤ k y :=
      sortedBy_head_le hb keyRight (by simp)
    dsimp only
    split
    · rename_i hk
      have e := List.getLast?_eq_none_iff.mp hk
      rw [e] at sA
      have e2 : a.take (gallopRight cmp keyRight a 0) = a := by
        have := List.take_append_drop (gallopRight cmp keyRight a 0) a
        rw [e, List.append_nil] at this
        exact this
      rw [e2] at sA
      exact sortedBy_append.mpr ⟨ha, hb, fun x hx y hy => le_trans (sA.1 x hx) (hb0 y hy)⟩
    · rename_i keyLeft hk
      have hlast := sortedBy_le_last (sortedBy_drop ha _) hk
      have sB := gallopLeft_spec hc keyLeft hb ((keyRight :: b').length - 1)
        (fun _ => by simp)
      have hkey : ∀ x ∈ a, k x ≤ k keyLeft := by
        intro x hx
        rw [← List.take_append_drop (gallopRight cmp keyRight a 0) a] at hx
        rcases List.mem_append.mp hx with hx | hx
        · have hm : keyLeft ∈ a.drop (gallopRight cmp keyRight a 0) :=
            List.mem_of_getLast?_eq_some hk
          exact sortedBy_take_le_drop ha _ x hx keyLeft hm
        · exact hlast x hx
      by_cases h0 : gallopLeft cmp keyLeft (keyRight :: b') ((keyRight :: b').length - 1) = 0
      · rw [if_pos h0]
        rw [h0] at sB
        exact sortedBy_append.mpr ⟨ha, hb, fun x hx y hy =>
          le_trans (hkey x hx) (sB.2 y (by simpa using hy))⟩
      rw [if_neg h0]
      generalize gallopLeft cmp keyLeft (keyRight :: b') ((keyRight :: b').length - 1) = lB
        at sB h0 ⊢
      generalize gallopRight cmp keyRight a 0 = n at sA hk hlast ⊢
      have hhead : ∀ y ∈ ((keyRight :: b').take lB).head?, ∀ x ∈ a.drop n, k y ≤ k x := by
        intro y hy x hx
        have := head?_take_mem hy
        simp at this
        subst this
        exact sA.2 x hx
      have hl : ∀ z ∈ (a.drop n).getLast?, ∀ y ∈ (keyRight :: b').take lB, k y ≤ k z := by
        intro z hz y hy
        rw [hk] at hz
        simp at hz
        subst hz
        exact sB.1 y hy
      generalize keyRight :: b' = b at hb hb0 sB hhead hl ⊢
      have hm : SortedBy k (if (a.drop n).length ≤ lB then mergeLow cmp (a.drop n) (b.take lB) mg
          else mergeHigh cmp (a.drop n) (b.take lB) mg).1 ∧
          (if (a.drop n).length ≤ lB then mergeLow cmp (a.drop n) (b.take lB) mg
          else mergeHigh cmp (a.drop n) (b.take lB) mg).1.Perm (a.drop n ++ b.take lB) := by
        split_ifs
        · exact ⟨mergeLow_sorted hc _ _ _ (sortedBy_drop ha n) (sortedBy_take hb lB) hhead hl,
            mergeLow_perm cmp _ _ _⟩
        · exact ⟨mergeHigh_sorted hc _ _ _ (sortedBy_drop ha n) (sortedBy_take hb lB) hhead hl,
            mergeHigh_perm cmp _ _ _⟩
      generalize (if (a.drop n).length ≤ lB then mergeLow cmp (a.drop n) (b.take lB) mg
          else mergeHigh cmp (a.drop n) (b.take lB) mg).1 = m at hm ⊢
      have hmem : ∀ y ∈ m, y ∈ a.drop n ∨ y ∈ b.take lB := fun y hy =>
        List.mem_append.mp (hm.2.subset hy)
      refine sortedBy_append.mpr ⟨sortedBy_append.mpr ⟨sortedBy_take ha n, hm.1, ?_⟩,
        sortedBy_drop hb lB, ?_⟩
      · intro x hx y hy
        rcases hmem y hy with hy | hy
        · exact sortedBy_take_le_drop ha n x hx y hy
        · exact le_trans (sA.1 x hx) (hb0 y (List.mem_of_mem_take hy))
      · intro x hx y hy
        rcases List.mem_append.mp hx with hx | hx
        · exact le_trans (hkey x (List.mem_of_mem_take hx)) (sB.2 y hy)
        · rcases hmem x hx with hx | hx
          · exact le_trans (hlast x hx) (sB.2 y hy)
          · exact sortedBy_take_le_drop hb lB x hx y hy

theorem mergeAt_perm (cmp : α → α → Int) (runs : List (List α)) (i mg : Nat) :
    (mergeAt cmp runs i mg).1.flatten.Perm runs.flatten := by
  unfold mergeAt
  split
  · rename_i a b rest hd
    have e : runs = runs.take i ++ a :: b :: rest := by
      rw [← hd, List.take_append_drop]
    conv_rhs => rw [e]
    simp only [List.flatten_append, List.flatten_cons]
    refine List.Perm.append_left _ ?_
    rw [← List.append_assoc]
    exact List.Perm.append_right _ (mergeRuns_perm cmp a b mg)
  · exact List.Perm.refl _

theorem mergeAt_sorted {cmp : α → α → Int} {k : α → Nat} (hc : Respects cmp k)
    (runs : List (List α)) (i mg : Nat) (hs : ∀ r ∈ runs, SortedBy k r) :
    ∀ r ∈ (mergeAt cmp runs i mg).1, SortedBy k r := by
  unfold mergeAt
  split
  · rename_i a b rest hd
    have e : runs = runs.take i ++ a :: b :: rest := by
      rw [← hd, List.take_append_drop]
    have ha : SortedBy k a := hs a (by rw [e]; simp)
    have hb : SortedBy k b := hs b (by rw [e]; simp)
    intro r hr
    rcases List.mem_append.mp hr with hr | hr
    · exact hs r (List.mem_of_mem_take hr)
    · rcases List.mem_cons.mp hr with rfl | hr
      · exact mergeRuns_sorted hc a b mg ha hb
      · exact hs r (by rw [e]; simp [hr])
  · exact hs

theorem mergeAt_length (cmp : α → α → Int) (runs : List (List α)) (i mg : Nat)
    (hi : i + 1 < runs.length) : (mergeAt cmp runs i mg).1.length + 1 = runs.length := by
  unfold mergeAt
  split
  · rename_i a b rest hd
    have hl : (runs.drop i).length = rest.length + 2 := by rw [hd]; simp
    rw [List.length_drop] at hl
    simp only [List.length_append, List.length_take, List.length_cons]
    omega
  · rename_i hne
    exfalso
    have hl : 2 ≤ (runs.drop i).length := by rw [List.length_drop]; omega
    match hd : runs.drop i with
    | [] => rw [hd] at hl; simp at hl
    | [_] => rw [hd] at hl; simp at hl
    | a :: b :: rest => exact hne a b rest hd

theorem mergeCollapse_spec {cmp : α → α → Int} {k : α → Nat} (hc : Respects cmp k) :
    ∀ (fuel : Nat) (runs : List (List α)) (mg : Nat), (∀ r ∈ runs, SortedBy k r) →
      (∀ r ∈ (mergeCollapse cmp fuel runs mg).1, SortedBy k r) ∧
      (mergeCollapse cmp fuel runs mg).1.flatten.Perm runs.flatten := by
  intro fuel
  induction fuel with
  | zero => intro runs mg hs; exact ⟨hs, List.Perm.refl _⟩
  | succ fuel ih =>
    intro runs mg hs
    have step : ∀ i, (∀ r ∈ (mergeCollapse cmp fuel (mergeAt cmp runs i mg).1
          (mergeAt cmp runs i mg).2).1, SortedBy k r) ∧
        (mergeCollapse cmp fuel (mergeAt cmp runs i mg).1
          (mergeAt cmp runs i mg).2).1.flatten.Perm runs.flatten := by
      intro i
      have := ih (mergeAt cmp runs i mg).1 (mergeAt cmp runs i mg).2
        (mergeAt_sorted hc runs i mg hs)
      exact ⟨this.1, this.2.trans (mergeAt_perm cmp runs i mg)⟩
    simp only [mergeCollapse]
    split_ifs
    · exact step _
    · exact step _
    · exact step _
    · exact ⟨hs, List.Perm.refl _⟩
    · exact ⟨hs, List.Perm.refl _⟩

theorem mergeCollapse_perm (cmp : α → α → Int) :
    ∀ (fuel : Nat) (runs : List (List α)) (mg : Nat),
      (mergeCollapse cmp fuel runs mg).1.flatten.Perm runs.flatten := by
  intro fuel
  induction fuel with
  | zero => intro runs mg; exact List.Perm.refl _
  | succ fuel ih =>
    intro runs mg
    simp only [mergeCollapse]
    split_ifs
    · exact (ih _ _).trans (mergeAt_perm cmp runs _ mg)
    · exact (ih _ _).trans (mergeAt_perm cmp runs _ mg)
    · exact (ih _ _).trans (mergeAt_perm cmp runs _ mg)
    · exact List.Perm.refl _
    · exact List.Perm.refl _

theorem mergeForceCollapse_perm (cmp : α → α → Int) :
    ∀ (fuel : Nat) (runs : List (List α)) (mg : Nat),
      (mergeForceCollapse cmp fuel runs mg).1.flatten.Perm runs.flatten := by
  intro fuel
  induction fuel with
  | zero => intro runs mg; exact List.Perm.refl _
  | succ fuel ih =>
    intro runs mg
    simp only [mergeForceCollapse]
    split_ifs
    · exact (ih _ _).trans (mergeAt_perm cmp runs _ mg)
    · exact (ih _ _).trans (mergeAt_perm cmp runs _ mg)
    · exact List.Perm.refl _

theorem mergeForceCollapse_spec {cmp : α → α → Int} {k : α → Nat} (hc : Respects cmp k) :
    ∀ (fuel : Nat) (runs : List (List α)) (mg : Nat), (∀ r ∈ runs, SortedBy k r) →
      runs.length ≤ fuel + 1 →
      (∀ r ∈ (mergeForceCollapse cmp fuel runs mg).1, SortedBy k r) ∧
      (mergeForceCollapse cmp fuel runs mg).1.length ≤ 1 := by
  intro fuel
  induction fuel with
  | zero => intro runs mg hs hl; exact ⟨hs, by simpa [mergeForceCollapse] using hl⟩
  | succ fuel ih =>
    intro runs mg hs hl
    simp only [mergeForceCollapse]
    split_ifs with h1 h2
    · exact ih _ _ (mergeAt_sorted hc runs _ mg hs)
        (by have := mergeAt_length cmp runs (runs.length - 2 - 1) mg (by omega); omega)
    · exact ih _ _ (mergeAt_sorted hc runs _ mg hs)
        (by have := mergeAt_length cmp runs (runs.length - 2) mg (by omega); omega)
    · exact ⟨hs, by simp only []; omega⟩

theorem nextRun_perm (cmp : α → α → Int) (minRunLength : Nat) (remaining : List α) :
    ((nextRun cmp minRunLength remaining).1 ++ (nextRun cmp minRunLength remaining).2).Perm
      remaining := by
  unfold nextRun
  have hp := countAndMakeRun_perm cmp remaining
  have hle := countAndMakeRun_le cmp remaining
  have hlen := hp.length_eq
  generalize countAndMakeRun cmp remaining = r at hp hle hlen ⊢
  dsimp only
  split_ifs with h
  · refine List.Perm.trans ?_ hp
    refine (List.Perm.append_right _ (binaryInsertionSort_perm cmp _ _)).trans ?_
    have e : min minRunLength remaining.length = r.1 + (min minRunLength remaining.length - r.1) := by
      omega
    rw [← List.take_add, ← e, List.take_append_drop]
  · rw [List.take_append_drop]
    exact hp

theorem nextRun_sorted {cmp : α → α → Int} {k : α → Nat} (hc : Respects cmp k)
    (minRunLength : Nat) (remaining : List α) :
    SortedBy k (nextRun cmp minRunLength remaining).1 := by
  unfold nextRun
  have hs := countAndMakeRun_sorted hc remaining
  dsimp only
  split_ifs with h
  · exact binaryInsertionSort_sorted hc _ _ hs
  · exact hs

theorem nextRun_length (cmp : α → α → Int) (minRunLength : Nat) (remaining : List α)
    (hne : remaining ≠ []) :
    (nextRun cmp minRunLength remaining).2.length < remaining.length := by
  unfold nextRun
  have hp := countAndMakeRun_perm cmp remaining
  have hpos := countAndMakeRun_pos cmp remaining hne
  have hlen := hp.length_eq
  have hl := List.length_pos.mpr hne
  generalize countAndMakeRun cmp remaining = r at hp hpos hlen ⊢
  dsimp only
  split_ifs with h
  · rw [List.length_drop]; omega
  · rw [List.length_drop]; omega

theorem timSortLoop_spec {cmp : α → α → Int} {k : α → Nat} (hc : Respects cmp k)
    (minRunLength : Nat) :
    ∀ (fuel : Nat) (runs : List (List α)) (remaining : List α) (mg : Nat),
      (∀ r ∈ runs, SortedBy k r) →
      (∀ r ∈ (timSortLoop cmp minRunLength fuel runs remaining mg).1, SortedBy k r) ∧
      (remaining.length ≤ fuel → (timSortLoop cmp minRunLength fuel runs remaining mg).2.1 = [])
      := by
  intro fuel
  induction fuel with
  | zero =>
    intro runs remaining mg hs
    exact ⟨hs, fun h => List.length_eq_zero.mp (by simpa [timSortLoop] using h)⟩
  | succ fuel ih =>
    intro runs remaining mg hs
    simp only [timSortLoop]
    split_ifs with h
    · have hne : remaining ≠ [] := fun e => h (by simp [e])
      have hpush : ∀ r ∈ runs ++ [(nextRun cmp minRunLength remaining).1], SortedBy k r := by
        intro r hr
        rcases List.mem_append.mp hr with hr | hr
        · exact hs r hr
        · rw [List.mem_singleton.mp hr]; exact nextRun_sorted hc _ _
      have hc1 := mergeCollapse_spec hc
        (runs ++ [(nextRun cmp minRunLength remaining).1]).length _ mg hpush
      have := ih _ (nextRun cmp minRunLength remaining).2
        (mergeCollapse cmp (runs ++ [(nextRun cmp minRunLength remaining).1]).length
          (runs ++ [(nextRun cmp minRunLength remaining).1]) mg).2 hc1.1
      refine ⟨this.1, fun hl => this.2 ?_⟩
      have := nextRun_length cmp minRunLength remaining hne
      omega
    · exact ⟨hs, fun _ => List.length_eq_zero.mp (by simpa using h)⟩

theorem timSortLoop_perm (cmp : α → α → Int) (minRunLength : Nat) :
    ∀ (fuel : Nat) (runs : List (List α)) (remaining : List α) (mg : Nat),
      ((timSortLoop cmp minRunLength fuel runs remaining mg).1.flatten ++
        (timSortLoop cmp minRunLength fuel runs remaining mg).2.1).Perm
        (runs.flatten ++ remaining) := by
  intro fuel
  induction fuel with
  | zero => intro runs remaining mg; exact List.Perm.refl _
  | succ fuel ih =>
    intro runs remaining mg
    simp only [timSortLoop]
    split_ifs with h
    · refine (ih _ _ _).trans ?_
      refine (List.Perm.append_right _ (mergeCollapse_perm cmp _ _ _)).trans ?_
      rw [List.flatten_append, List.append_assoc]
      refine List.Perm.append_left _ ?_
      simpa using nextRun_perm cmp minRunLength remaining
    · exact List.Perm.refl _

/-- `Array.prototype.sort` rearranges the array: nothing is lost, nothing is added,
whatever the comparator answers. -/
theorem sort_perm (cmp : α → α → Int) (xs : List α) : (sort cmp xs).Perm xs := by
  unfold sort timSort
  split_ifs
  · exact List.Perm.refl _
  · dsimp only
    refine (List.Perm.append_right _ (mergeForceCollapse_perm cmp _ _ _)).trans ?_
    simpa using timSortLoop_perm cmp (computeMinRunLength xs.length) xs.length [] xs kMinGallopWins

/-- `Array.prototype.sort` leaves the array in non-decreasing order of every key
that the sign of the comparator respects. -/
theorem sort_sorted {cmp : α → α → Int} {k : α → Nat} (hc : Respects cmp k) (xs : List α) :
    SortedBy k (sort cmp xs) := by
  unfold sort timSort
  split_ifs with h
  · match xs, h with
    | [], _ => exact List.Pairwise.nil
    | [x], _ => exact List.pairwise_singleton _ x
    | _ :: _ :: _, h => simp at h; omega
  · dsimp only
    have hl := timSortLoop_spec hc (computeMinRunLength xs.length) xs.length [] xs
      kMinGallopWins (by simp)
    rw [hl.2 le_rfl, List.append_nil]
    have hf := mergeForceCollapse_spec hc
      (timSortLoop cmp (computeMinRunLength xs.length) xs.length [] xs kMinGallopWins).1.length
      (timSortLoop cmp (computeMinRunLength xs.length) xs.length [] xs kMinGallopWins).1
      (timSortLoop cmp (computeMinRunLength xs.length) xs.length [] xs kMinGallopWins).2.2
      hl.1 (by omega)
    generalize (mergeForceCollapse cmp
      (timSortLoop cmp (computeMinRunLength xs.length) xs.length [] xs kMinGallopWins).1.length
      (timSortLoop cmp (computeMinRunLength xs.length) xs.length [] xs kMinGallopWins).1
      (timSortLoop cmp (computeMinRunLength xs.length) xs.length [] xs kMinGallopWins).2.2).1
      = runs at hf ⊢
    match runs, hf with
    | [], _ => exact List.Pairwise.nil
    | [r], hf => simpa using hf.1 r (by simp)
    | _ :: _ :: _, hf => have := hf.2; simp at this

end V8

/-! ## Theorems: `compileData` -/

theorem respects_byBlock : V8.Respects byBlock Entry.block := by
  intro x y
  unfold byBlock
  constructor
  · intro h; split_ifs at h with h1 <;> omega
  · intro h; split_ifs at h with h1 <;> omega

theorem filterByFunctionName_decodeAll (name : String) (decode : Tx → Option String) :
    ∀ (node_tz : List Tx) (r : List NodeTz),
      filterByFunctionName name (decodeAll decode node_tz) = Except.ok r →
      r = identityEvents name decode node_tz ∧ ∀ x ∈ node_tz, decode x ≠ none := by
  intro node_tz
  induction node_tz with
  | nil =>
    intro r h
    simp [decodeAll, filterByFunctionName] at h
    simp [identityEvents, ← h]
  | cons x rest ih =>
    intro r h
    have e : decodeAll decode (x :: rest) =
        (match decode x with
          | some tz => some { tx := x, timezone := tz }
          | none => none) :: decodeAll decode rest := rfl
    rw [e] at h
    cases hd : decode x with
    | none => rw [hd] at h; simp [filterByFunctionName] at h
    | some tz =>
      rw [hd] at h
      simp only [filterByFunctionName] at h
      cases hr : filterByFunctionName name (decodeAll decode rest) with
      | error e => rw [hr] at h; simp at h
      | ok r' =>
        rw [hr] at h
        have := ih r' hr
        simp only [Except.ok.injEq] at h
        refine ⟨?_, ?_⟩
        · rw [← h, this.1]
          simp only [identityEvents, List.filterMap_cons, hd]
          split_ifs <;> rfl
        · intro y hy
          rcases List.mem_cons.mp hy with rfl | hy
          · rw [hd]; simp
          · exact this.2 y hy

theorem attachAll_ok (inits : List NodeTz) :
    ∀ (deposits : List Tx) (ds : List Deposit), attachAll inits deposits = Except.ok ds →
      ds = deposits.map (fun d =>
        { tx := d, timezone := registeredTimezone inits d, accumulator := 1 }) := by
  intro deposits
  induction deposits with
  | nil => intro ds h; simp [attachAll] at h; simp [← h]
  | cons x rest ih =>
    intro ds h
    simp only [attachAll] at h
    cases h1 : attachInitial inits x with
    | error e => rw [h1] at h; simp at h
    | ok d =>
      rw [h1] at h
      cases h2 : attachAll inits rest with
      | error e => rw [h2] at h; simp at h
      | ok ds' =>
        rw [h2] at h
        simp only [Except.ok.injEq] at h
        rw [← h, ih ds' h2, List.map_cons]
        congr 1
        unfold attachInitial at h1
        unfold registeredTimezone
        cases hf : inits.filter (fun y => decide (y.tx.from_ = x.from_)) with
        | nil => rw [hf] at h1; simp at h1
        | cons y ys =>
          rw [hf] at h1
          simp only [Except.ok.injEq] at h1
          exact h1.symm

theorem forEachDeposit_eq (x : NodeTz) :
    ∀ (ds migs : List Deposit), forEachDeposit x ds migs =
      (ds.map (fun y => (migrate x y).1), migs ++ ds.flatMap (fun y => (migrate x y).2)) := by
  intro ds
  induction ds with
  | nil => intro migs; simp [forEachDeposit]
  | cons y rest ih =>
    intro migs
    simp only [forEachDeposit, ih, List.map_cons, List.flatMap_cons, List.append_assoc]

theorem flatMap_migrate (x : NodeTz) (ds : List Deposit) :
    ds.flatMap (fun y => (migrate x y).2) =
      ((ds.filter (fun y =>
        decide (x.tx.from_ = y.tx.from_ ∧ y.tx.blockNumber ≤ x.tx.blockNumber))).map
        (fun y => (migrate x y).2)).flatten := by
  induction ds with
  | nil => simp
  | cons y rest ih =>
    simp only [List.flatMap_cons, ih, List.filter_cons]
    by_cases h : x.tx.from_ = y.tx.from_ ∧ y.tx.blockNumber ≤ x.tx.blockNumber
    · simp [h]
    · simp only [h, decide_False, Bool.false_eq_true, if_false]
      have : (migrate x y).2 = [] := by
        unfold migrate
        dsimp only
        split_ifs with h1 h2 h3
        · exact absurd ⟨h1, h2⟩ h
        · rfl
        · rfl
        · rfl
      rw [this, List.nil_append]

theorem forEachReset_eq :
    ∀ (resets : List NodeTz) (ds migs : List Deposit), forEachReset resets ds migs =
      (ds.map (fun y => resets.foldl (fun y x => (migrate x y).1) y),
        migs ++ (allMigrations resets ds).flatten) := by
  intro resets
  induction resets with
  | nil => intro ds migs; simp [forEachReset, allMigrations]
  | cons x rest ih =>
    intro ds migs
    simp only [forEachReset, forEachDeposit_eq, ih, allMigrations, List.map_map,
      List.foldl_cons, List.flatten_append, flatMap_migrate, List.append_assoc]
    rfl

theorem migrate_fst (x : NodeTz) (y : Deposit) :
    (migrate x y).1 = { y with timezone :=
      if x.tx.from_ = y.tx.from_ ∧ x.tx.blockNumber < y.tx.blockNumber then x.timezone
      else y.timezone } := by
  unfold migrate
  dsimp only
  split_ifs with h1 h2 h3 h4 h5 h6 <;> first | rfl | (exfalso; omega) | (exfalso; tauto)

theorem migrate_fst_tx (x : NodeTz) (y : Deposit) : (migrate x y).1.tx = y.tx := by
  rw [migrate_fst]

theorem migrate_fst_accumulator (x : NodeTz) (y : Deposit) :
    (migrate x y).1.accumulator = y.accumulator := by
  rw [migrate_fst]

theorem foldl_migrate :
    ∀ (resets : List NodeTz) (y : Deposit),
      resets.foldl (fun y x => (migrate x y).1) y =
        { y with timezone :=
          match (changesBefore resets y.tx).getLast? with
          | some c => c.timezone
          | none => y.timezone } := by
  intro resets
  induction resets with
  | nil => intro y; simp [changesBefore]
  | cons x rest ih =>
    intro y
    rw [List.foldl_cons, ih, migrate_fst]
    simp only [changesBefore, List.filter_cons]
    by_cases h : x.tx.from_ = y.tx.from_ ∧ x.tx.blockNumber < y.tx.blockNumber
    · simp only [h, and_self, if_true, decide_True]
      cases hl : (List.filter (fun c =>
          decide (c.tx.from_ = y.tx.from_ ∧ c.tx.blockNumber < y.tx.blockNumber)) rest) with
      | nil => simp
      | cons c cs =>
        simp only [List.getLast?_cons_cons]
        cases hg : (c :: cs).getLast? with
        | none => simp at hg
        | some z => rfl
    · simp only [h, if_false, decide_False, Bool.false_eq_true]

theorem migrate_snd_of_affected (x : NodeTz) (y : Deposit)
    (h : x.tx.from_ = y.tx.from_ ∧ y.tx.blockNumber ≤ x.tx.blockNumber) :
    (migrate x y).2.map toEntry =
      [{ node := y.tx.from_, block := x.tx.blockNumber, timeStamp := x.tx.timeStamp,
         timezone := y.timezone, accumulator := -1 },
       { node := y.tx.from_, block := x.tx.blockNumber, timeStamp := x.tx.timeStamp,
         timezone := x.timezone, accumulator := 1 }] := by
  unfold migrate
  dsimp only
  rw [if_pos h.1, if_pos h.2]
  rfl

theorem allMigrations_pairs :
    ∀ (resets : List NodeTz) (ds : List Deposit),
      List.Forall₂ IsMigrationPair (affectedPairs resets (ds.map (fun y => y.tx)))
        ((allMigrations resets ds).map (List.map toEntry)) := by
  intro resets
  induction resets with
  | nil => intro ds; simp [affectedPairs, allMigrations]
  | cons x rest ih =>
    intro ds
    have e1 : affectedPairs (x :: rest) (ds.map (fun y => y.tx)) =
        ((ds.filter (fun y => decide (x.tx.from_ = y.tx.from_ ∧
            y.tx.blockNumber ≤ x.tx.blockNumber))).map (fun y => (x, y.tx)))
        ++ affectedPairs rest (ds.map (fun y => y.tx)) := by
      simp only [affectedPairs, List.flatMap_cons, List.filter_map, List.map_map]
      rfl
    have e2 : (ds.map (fun y => (migrate x y).1)).map (fun y => y.tx)
        = ds.map (fun y => y.tx) := by
      simp only [List.map_map]
      exact List.map_congr_left (fun y _ => migrate_fst_tx x y)
    rw [e1]
    simp only [allMigrations, List.map_append]
    refine List.rel_append ?_ (by have := ih (ds.map (fun y => (migrate x y).1)); rwa [e2] at this)
    rw [List.map_map, List.forall₂_map_left_iff, List.forall₂_map_right_iff, List.forall₂_same]
    intro y hy
    have hc := (List.mem_filter.mp hy).2
    simp only [decide_eq_true_eq] at hc
    exact ⟨y.timezone, by simpa using migrate_snd_of_affected x y hc⟩

theorem migrationPairs_length {pairs : List (NodeTz × Tx)} {migs : List (List Entry)}
    (h : List.Forall₂ IsMigrationPair pairs migs) : migs.flatten.length = 2 * pairs.length := by
  induction h with
  | nil => simp
  | cons hp _ ih =>
    obtain ⟨old, rfl⟩ := hp
    simp only [List.flatten_cons, List.length_append, ih, List.length_cons]
    simp
    omega

theorem migrationPairs_sum {pairs : List (NodeTz × Tx)} {migs : List (List Entry)}
    (h : List.Forall₂ IsMigrationPair pairs migs) :
    (migs.flatten.map (fun e => e.accumulator)).sum = 0 := by
  induction h with
  | nil => simp
  | cons hp _ ih =>
    obtain ⟨old, rfl⟩ := hp
    simp only [List.flatten_cons, List.map_append, List.sum_append, ih]
    simp

theorem migrationPairs_mem {pairs : List (NodeTz × Tx)} {migs : List (List Entry)}
    (h : List.Forall₂ IsMigrationPair pairs migs) :
    ∀ m ∈ migs.flatten, ∃ p ∈ pairs, m.node = p.2.from_ ∧ m.block = p.1.tx.blockNumber ∧
      m.timeStamp = p.1.tx.timeStamp := by
  induction h with
  | nil => simp
  | @cons p m ps ms hp _ ih =>
    obtain ⟨old, rfl⟩ := hp
    intro e he
    simp only [List.flatten_cons, List.mem_append] at he
    rcases he with he | he
    · refine ⟨p, by simp, ?_⟩
      simp only [List.mem_cons, List.mem_singleton, List.not_mem_nil, or_false] at he
      rcases he with rfl | rfl <;> exact ⟨rfl, rfl, rfl⟩
    · obtain ⟨q, hq, hq2⟩ := ih e he
      exact ⟨q, List.mem_cons_of_mem _ hq, hq2⟩

theorem mem_affectedPairs {resets : List NodeTz} {deposits : List Tx} {p : NodeTz × Tx}
    (h : p ∈ affectedPairs resets deposits) :
    p.1 ∈ resets ∧ p.2 ∈ deposits ∧ p.1.tx.from_ = p.2.from_ ∧
      p.2.blockNumber ≤ p.1.tx.blockNumber := by
  unfold affectedPairs at h
  simp only [List.mem_flatMap, List.mem_map, List.mem_filter, decide_eq_true_eq] at h
  obtain ⟨c, hc, d, ⟨hd, hcd⟩, rfl⟩ := h
  exact ⟨hc, hd, hcd.1, hcd.2⟩

/-- The ledger of a run that completes, before the sort: one row per deposit, then
the migration pairs in the order the loops push them. -/
theorem compileData_ok_form (decode : Tx → Option String) (node_tz node_deposits : List Tx)
    (ledger : List Entry) (h : compileData decode node_tz node_deposits = Except.ok ledger) :
    ∃ migs : List (List Entry),
      ledger = V8.sort byBlock
        (node_deposits.map (ownEntry (identityEvents "registerNode" decode node_tz)
          (identityEvents "setTimezone" decode node_tz)) ++ migs.flatten) ∧
      List.Forall₂ IsMigrationPair
        (affectedPairs (identityEvents "setTimezone" decode node_tz) node_deposits) migs := by
  unfold compileData at h
  dsimp only at h
  cases h1 : filterByFunctionName "registerNode" (decodeAll decode node_tz) with
  | error e => rw [h1] at h; simp at h
  | ok inits =>
    cases h2 : filterByFunctionName "setTimezone" (decodeAll decode node_tz) with
    | error e => rw [h1, h2] at h; simp at h
    | ok resets =>
      cases h3 : attachAll inits node_deposits with
      | error e => simp only [h1, h2, h3] at h; simp at h
      | ok ds =>
        simp only [h1, h2, h3] at h
        simp only [Except.ok.injEq] at h
        have e1 := (filterByFunctionName_decodeAll _ decode node_tz inits h1).1
        have e2 := (filterByFunctionName_decodeAll _ decode node_tz resets h2).1
        have e3 := attachAll_ok inits node_deposits ds h3
        rw [← e1, ← e2]
        refine ⟨(allMigrations resets ds).map (List.map toEntry), ?_, ?_⟩
        · rw [← h, forEachReset_eq, List.nil_append, List.map_append, List.map_flatten]
          congr 2
          rw [e3, List.map_map, List.map_map]
          apply List.map_congr_left
          intro d _
          simp only [Function.comp, foldl_migrate]
          rfl
        · have := allMigrations_pairs resets ds
          have e4 : ds.map (fun y => y.tx) = node_deposits := by
            rw [e3, List.map_map]
            exact (List.map_congr_left (fun d _ => rfl)).trans (List.map_id _)
          rw [e4] at this
          exact this

theorem attachAll_ok_registered (inits : List NodeTz) :
    ∀ (deposits : List Tx) (ds : List Deposit), attachAll inits deposits = Except.ok ds →
      ∀ d ∈ deposits, ∃ r ∈ inits, r.tx.from_ = d.from_ := by
  intro deposits
  induction deposits with
  | nil => intro ds _ d hd; simp at hd
  | cons x rest ih =>
    intro ds h d hd
    simp only [attachAll] at h
    cases h1 : attachInitial inits x with
    | error e => rw [h1] at h; simp at h
    | ok d1 =>
      rw [h1] at h
      cases h2 : attachAll inits rest with
      | error e => rw [h2] at h; simp at h
      | ok ds1 =>
        rcases List.mem_cons.mp hd with rfl | hd
        · unfold attachInitial at h1
          cases hf : inits.filter (fun y => decide (y.tx.from_ = d.from_)) with
          | nil => rw [hf] at h1; simp at h1
          | cons y ys =>
            have hy : y ∈ inits.filter (fun y => decide (y.tx.from_ = d.from_)) := by
              rw [hf]; simp
            have := List.mem_filter.mp hy
            exact ⟨y, this.1, by simpa using this.2⟩
        · exact ih ds1 h2 d hd

/-- A run of `compileData` completes only on input where every identity transaction
decodes and every deposit's sender has a registration. -/
theorem compileData_ok_inputs (decode : Tx → Option String) (node_tz node_deposits : List Tx)
    (ledger : List Entry) (h : compileData decode node_tz node_deposits = Except.ok ledger) :
    (∀ x ∈ node_tz, decode x ≠ none) ∧
    ∀ d ∈ node_deposits, ∃ r ∈ identityEvents "registerNode" decode node_tz,
      r.tx.from_ = d.from_ := by
  unfold compileData at h
  dsimp only at h
  cases h1 : filterByFunctionName "registerNode" (decodeAll decode node_tz) with
  | error e => rw [h1] at h; simp at h
  | ok inits =>
    cases h2 : filterByFunctionName "setTimezone" (decodeAll decode node_tz) with
    | error e => rw [h1, h2] at h; simp at h
    | ok resets =>
      cases h3 : attachAll inits node_deposits with
      | error e => simp only [h1, h2, h3] at h; simp at h
      | ok ds =>
        have e1 := filterByFunctionName_decodeAll _ decode node_tz inits h1
        refine ⟨e1.2, ?_⟩
        rw [← e1.1]
        exact attachAll_ok_registered inits node_deposits ds h3

/-! ## Theorems: the fetcher -/

theorem pruneCalls_calls_subset (s : FetchState) : ∀ t ∈ (pruneCalls s).calls, t ∈ s.calls := by
  intro t ht
  exact (List.mem_filter.mp ht).1

theorem pruneCalls_calls_window (s : FetchState) :
    ∀ t ∈ (pruneCalls s).calls, s.now - windowMs < t := by
  intro t ht
  have := (List.mem_filter.mp ht).2
  simpa using this

theorem pruneCalls_of_window (s : FetchState) (h : ∀ t ∈ s.calls, s.now - windowMs < t) :
    pruneCalls s = s := by
  unfold pruneCalls
  have : s.calls.filter (fun t => decide (t > s.now - windowMs)) = s.calls :=
    List.filter_eq_self.mpr (fun t ht => by simpa using h t ht)
  rw [this]

theorem rateLimitLoop_of_le (w : World) (fuel : Nat) (s : FetchState)
    (h : s.calls.length ≤ maxCalls) : rateLimitLoop w fuel s = some s := by
  cases fuel <;> simp [rateLimitLoop, Nat.not_lt.mpr h]

/-- The loop of `rateLimitCalls` ends: every wait lets ten seconds pass, and after
six of them no timestamp recorded before the first is left in the window. -/
theorem rateLimitLoop_terminates (w : World) :
    ∀ (fuel : Nat) (s : FetchState), (∀ t ∈ s.calls, s.now - windowMs < t) →
      (∀ t ∈ s.calls, t + windowMs ≤ s.now + 10000 * (fuel : Int)) →
      ∃ s1, rateLimitLoop w fuel s = some s1 ∧ s1.requests = s.requests ∧ s.now ≤ s1.now ∧
        (∀ t ∈ s1.calls, t ∈ s.calls) ∧ s1.calls.length ≤ maxCalls := by
  intro fuel
  induction fuel with
  | zero =>
    intro s h1 h2
    have he : s.calls = [] := by
      cases hc : s.calls with
      | nil => rfl
      | cons t ts =>
        have a := h1 t (by rw [hc]; simp)
        have b := h2 t (by rw [hc]; simp)
        simp at b
        omega
    refine ⟨s, ?_, rfl, le_rfl, fun t ht => ht, by rw [he]; simp⟩
    simp [rateLimitLoop, he, maxCalls]
  | succ fuel ih =>
    intro s h1 h2
    simp only [rateLimitLoop]
    split_ifs with hlen
    · have hn : (pruneCalls (sleep w (1000 * 10) s)).now = s.now + 10000 + w.lag s.awaits := by
        simp [pruneCalls, sleep]
      obtain ⟨s1, e1, e2, e3, e4, e5⟩ := ih (pruneCalls (sleep w (1000 * 10) s))
        (pruneCalls_calls_window _)
        (by
          intro t ht
          have := h2 t (pruneCalls_calls_subset (sleep w (1000 * 10) s) t ht)
          rw [hn]
          push_cast at this ⊢
          omega)
      refine ⟨s1, e1, ?_, ?_, ?_, e5⟩
      · rw [e2]; simp [pruneCalls, sleep]
      · rw [hn] at e3; omega
      · intro t ht
        exact pruneCalls_calls_subset (sleep w (1000 * 10) s) t (e4 t ht)
    · exact ⟨s, rfl, rfl, le_rfl, fun t ht => ht, by omega⟩

theorem rateLimitCalls_terminates (w : World) (fuel : Nat) (s : FetchState)
    (hfuel : 6 ≤ fuel) (hs : ∀ t ∈ s.calls, t ≤ s.now) :
    ∃ s1, rateLimitCalls w fuel s = some s1 ∧ s1.requests = s.requests ∧ s.now ≤ s1.now ∧
      (∀ t ∈ s1.calls, t ≤ s1.now) ∧ s1.calls.length ≤ maxCalls := by
  unfold rateLimitCalls
  have hn : (pruneCalls s).now = s.now := rfl
  obtain ⟨s1, e1, e2, e3, e4, e5⟩ := rateLimitLoop_terminates w fuel (pruneCalls s)
    (pruneCalls_calls_window s)
    (by
      intro t ht
      have := hs t (pruneCalls_calls_subset s t ht)
      rw [hn]
      have hf : (6 : Int) ≤ (fuel : Int) := by exact_mod_cast hfuel
      simp only [windowMs]
      omega)
  refine ⟨s1, e1, e2, by rw [hn] at e3; exact e3, ?_, e5⟩
  intro t ht
  have := hs t (pruneCalls_calls_subset s t (e4 t ht))
  rw [hn] at e3
  omega

theorem awaitResponse_le (w : World) (s : FetchState) (h : ∀ t ∈ s.calls, t ≤ s.now) :
    ∀ t ∈ (awaitResponse w (recordCall s)).calls, t ≤ (awaitResponse w (recordCall s)).now := by
  intro t ht
  simp only [awaitResponse, recordCall, List.mem_append, List.mem_singleton] at ht ⊢
  rcases ht with ht | rfl
  · have := h t ht; omega
  · omega

theorem sleep_le (w : World) (ms : Nat) (s : FetchState) (h : ∀ t ∈ s.calls, t ≤ s.now) :
    ∀ t ∈ (sleep w ms s).calls, t ≤ (sleep w ms s).now := by
  intro t ht
  simp only [sleep] at ht ⊢
  have := h t ht
  omega

theorem fetchUrl_spec (w : World) (fuel : Nat) (url : String) (hfuel : 6 ≤ fuel) :
    ∀ (retries : Nat) (s : FetchState), (∀ t ∈ s.calls, t ≤ s.now) →
      (∀ j ≤ retries, ∃ r, w.respond url (s.requests + j) = Except.ok r) →
      ∃ (j : Nat) (r : Response) (s1 : FetchState), j ≤ retries ∧
        fetchUrl w fuel url retries s = some (Except.ok r, s1) ∧
        w.respond url (s.requests + j) = Except.ok r ∧
        s1.requests = s.requests + j + 1 ∧
        (∀ i < j, ∀ q, w.respond url (s.requests + i) = Except.ok q →
          isRetryStatus q.status = true) ∧
        (isRetryStatus r.status = false ∨ j = retries) ∧
        (∀ t ∈ s1.calls, t ≤ s1.now) := by
  intro retries
  induction retries with
  | zero =>
    intro s hs hok
    obtain ⟨s1, e1, e2, e3, e4, e5⟩ := rateLimitCalls_terminates w fuel s hfuel hs
    obtain ⟨r, hr⟩ := hok 0 le_rfl
    have hrq : (recordCall s1).requests = s.requests := e2
    rw [Nat.add_zero] at hr
    refine ⟨0, r, awaitResponse w (recordCall s1), le_rfl, ?_, by simpa using hr, ?_, by simp,
      Or.inr rfl, ?_⟩
    · unfold fetchUrl
      simp only [e1, hrq, hr]
      split_ifs <;> rfl
    · simp [awaitResponse, recordCall, e2]
    · exact awaitResponse_le w s1 e4
  | succ n ih =>
    intro s hs hok
    obtain ⟨s1, e1, e2, e3, e4, e5⟩ := rateLimitCalls_terminates w fuel s hfuel hs
    obtain ⟨r, hr⟩ := hok 0 (Nat.zero_le _)
    have hrq : (recordCall s1).requests = s.requests := e2
    rw [Nat.add_zero] at hr
    have hreq : (awaitResponse w (recordCall s1)).requests = s.requests + 1 := by
      simp [awaitResponse, recordCall, e2]
    by_cases hretry : isRetryStatus r.status = true
    · obtain ⟨j, r2, s2, hj, f1, f2, f3, f4, f5, f6⟩ :=
        ih (sleep w (20000 + w.random (awaitResponse w (recordCall s1)).awaits % 1000)
            (awaitResponse w (recordCall s1)))
          (sleep_le w _ _ (awaitResponse_le w s1 e4))
          (by
            intro j hj
            obtain ⟨q, hq⟩ := hok (j + 1) (by omega)
            refine ⟨q, ?_⟩
            have : (sleep w (20000 + w.random (awaitResponse w (recordCall s1)).awaits % 1000)
                (awaitResponse w (recordCall s1))).requests = s.requests + 1 := hreq
            rw [this, ← hq]; congr 1; omega)
      have hreq2 : (sleep w (20000 + w.random (awaitResponse w (recordCall s1)).awaits % 1000)
          (awaitResponse w (recordCall s1))).requests = s.requests + 1 := hreq
      rw [hreq2] at f2 f3 f4
      refine ⟨j + 1, r2, s2, by omega, ?_, ?_, ?_, ?_, ?_, f6⟩
      · unfold fetchUrl
        simp only [e1, hrq, hr, hretry, if_true]
        exact f1
      · rw [← f2]; congr 1; omega
      · omega
      · intro i hi q hq
        cases i with
        | zero =>
          rw [Nat.add_zero, hr] at hq
          cases hq
          exact hretry
        | succ i =>
          refine f4 i (by omega) q ?_
          rw [← hq]; congr 1; omega
      · rcases f5 with f5 | f5
        · exact Or.inl f5
        · exact Or.inr (by omega)
    · refine ⟨0, r, awaitResponse w (recordCall s1), Nat.zero_le _, ?_, by simpa using hr, ?_,
        by simp, Or.inl (by simpa using hretry), ?_⟩
      · unfold fetchUrl
        simp only [e1, hrq, hr, hretry]
        rfl
      · simp [hreq]
      · exact awaitResponse_le w s1 e4

theorem fetchUrl_quiet (fuel retries : Nat) (url : String) (s : FetchState)
    (hlen : s.calls.length ≤ maxCalls) (hwin : ∀ t ∈ s.calls, s.now - windowMs < t) :
    fetchUrl quietWorld fuel url retries s =
      some (Except.ok { status := 200, statusText := "OK" },
        awaitResponse quietWorld (recordCall s)) := by
  unfold fetchUrl
  have h1 : rateLimitCalls quietWorld fuel s = some s := by
    unfold rateLimitCalls
    rw [pruneCalls_of_window s hwin]
    exact rateLimitLoop_of_le quietWorld fuel s hlen
  simp only [h1]
  rfl

theorem fetchAll_quiet (fuel retries : Nat) (url : String) (start : Int) :
    ∀ (k : Nat) (s : FetchState), (∀ t ∈ s.calls, start ≤ t) → start ≤ s.now →
      s.now + 1000 * (k : Int) < start + windowMs → s.calls.length + k ≤ maxCalls + 1 →
      ∃ s1, fetchAll quietWorld fuel retries (List.replicate k url) s = some s1 ∧
        s1.calls.length = s.calls.length + k ∧ s1.now = s.now + 1000 * (k : Int) ∧
        ∀ t ∈ s1.calls, start ≤ t := by
  intro k
  induction k with
  | zero =>
    intro s h1 _ _ _
    exact ⟨s, rfl, rfl, by simp, h1⟩
  | succ k ih =>
    intro s h1 h2 h3 h4
    have hq := fetchUrl_quiet fuel retries url s (by omega)
      (fun t ht => by have := h1 t ht; push_cast at h3; omega)
    obtain ⟨s1, e1, e2, e3, e4⟩ := ih (awaitResponse quietWorld (recordCall s))
      (by
        intro t ht
        simp only [awaitResponse, recordCall, List.mem_append, List.mem_singleton] at ht
        rcases ht with ht | rfl
        · exact h1 t ht
        · exact h2)
      (by simp only [awaitResponse, recordCall, quietWorld]; omega)
      (by simp only [awaitResponse, recordCall, quietWorld]; push_cast at h3 ⊢; omega)
      (by simp only [awaitResponse, recordCall, List.length_append, List.length_singleton]; omega)
    refine ⟨s1, ?_, ?_, ?_, e4⟩
    · simp only [List.replicate_succ, fetchAll, hq]
      exact e1
    · rw [e2]
      simp only [awaitResponse, recordCall, List.length_append, List.length_singleton]
      omega
    · rw [e3]
      simp only [awaitResponse, recordCall, quietWorld]
      push_cast
      omega

/-! ## The claims -/

theorem scenario_ledger :
    compileData plainDecode scenarioIdentity scenarioDeposits = Except.ok
      [⟨"A", 150, 1500, "UTC", 1⟩, ⟨"A", 200, 2000, "UTC+2", 1⟩, ⟨"A", 200, 2000, "UTC", -1⟩,
       ⟨"A", 250, 2500, "UTC+2", 1⟩] := by rfl

/-- C1: the ledger of a run of `compileData` that completes is ordered by block
height: of two adjacent rows the earlier has a block height not above the later's. -/
theorem compileData_ledger_ordered (decode : Tx → Option String)
    (node_tz node_deposits : List Tx) (ledger : List Entry)
    (h : compileData decode node_tz node_deposits = Except.ok ledger) :
    List.Chain' (fun a b => a.block ≤ b.block) ledger := by
  obtain ⟨migs, hl, _⟩ := compileData_ok_form decode node_tz node_deposits ledger h
  rw [hl]
  exact V8.chain_of_sortedBy (V8.sort_sorted respects_byBlock _)

theorem compileData_ledger_ordered_witness :
    compileData plainDecode scenarioIdentity scenarioDeposits = Except.ok
      [⟨"A", 150, 1500, "UTC", 1⟩, ⟨"A", 200, 2000, "UTC+2", 1⟩, ⟨"A", 200, 2000, "UTC", -1⟩,
       ⟨"A", 250, 2500, "UTC+2", 1⟩] ∧
    List.Chain' (fun a b => a.block ≤ b.block)
      ([⟨"A", 150, 1500, "UTC", 1⟩, ⟨"A", 200, 2000, "UTC+2", 1⟩, ⟨"A", 200, 2000, "UTC", -1⟩,
       ⟨"A", 250, 2500, "UTC+2", 1⟩] : List Entry) :=
  ⟨scenario_ledger, compileData_ledger_ordered plainDecode scenarioIdentity scenarioDeposits _
    scenario_ledger⟩

theorem twoChanges_ledger :
    compileData plainDecode twoChangesIdentity [depositTx "A" 150 1500] = Except.ok
      [⟨"A", 150, 1500, "UTC", 1⟩, ⟨"A", 200, 2000, "UTC+1", 1⟩, ⟨"A", 200, 2000, "UTC", -1⟩,
       ⟨"A", 300, 3000, "UTC+2", 1⟩, ⟨"A", 300, 3000, "UTC", -1⟩] := by rfl

/-- C2, at the failing input: the deposit at block 150 stands behind the changes at
blocks 200 and 300. The one removal row at block 300 carries `"UTC"`, the registered
timezone, while the latest change below block 300, the one at block 200, had moved
the deposit to `"UTC+1"`. -/
theorem removal_row_keeps_registered_timezone :
    ∃ ledger, compileData plainDecode twoChangesIdentity [depositTx "A" 150 1500]
        = Except.ok ledger ∧
      ledger.filter (fun e => decide (e.block = 300 ∧ e.accumulator = -1))
        = [⟨"A", 300, 3000, "UTC", -1⟩] ∧
      timezoneByBlockHeight (identityEvents "registerNode" plainDecode twoChangesIdentity)
        (identityEvents "setTimezone" plainDecode twoChangesIdentity)
        (setTimezoneTx "A" "UTC+2" 300 3000) = "UTC+1" :=
  ⟨_, twoChanges_ledger, by decide, by rfl⟩

/-- C3, at the failing input: after the two changes the one deposit counts `-1` for
`"UTC"`, `+1` for `"UTC+1"` and `+1` for `"UTC+2"`. -/
theorem netWeight_after_two_changes :
    ∃ ledger, compileData plainDecode twoChangesIdentity [depositTx "A" 150 1500]
        = Except.ok ledger ∧
      netWeight ledger "A" 300 "UTC" = -1 ∧ netWeight ledger "A" 300 "UTC+1" = 1 ∧
      netWeight ledger "A" 300 "UTC+2" = 1 :=
  ⟨_, twoChanges_ledger, by decide, by decide, by decide⟩

theorem unordered_ledger :
    compileData plainDecode unorderedIdentity [depositTx "A" 400 4000] = Except.ok
      [⟨"A", 400, 4000, "UTC+1", 1⟩] := by rfl

/-- C4 as stated fails: with the change of block 300 standing before the change of
block 200 in the input, the deposit of block 400 gets `"UTC+1"`, the timezone of the
change processed last, while the latest change by block height gives `"UTC+2"`. -/
theorem own_row_not_latest_by_block :
    compileData plainDecode unorderedIdentity [depositTx "A" 400 4000] = Except.ok
      [⟨"A", 400, 4000, "UTC+1", 1⟩] ∧
    timezoneByBlockHeight (identityEvents "registerNode" plainDecode unorderedIdentity)
      (identityEvents "setTimezone" plainDecode unorderedIdentity) (depositTx "A" 400 4000)
      = "UTC+2" :=
  ⟨unordered_ledger, by rfl⟩

theorem latestByBlock_append (l : List NodeTz) (c : NodeTz) :
    latestByBlock (l ++ [c]) =
      match latestByBlock l with
      | none => some c
      | some b => if b.tx.blockNumber ≤ c.tx.blockNumber then some c else some b := by
  unfold latestByBlock
  rw [List.foldl_append]
  rfl

theorem latestByBlock_eq_getLast? (l : List NodeTz)
    (h : l.Pairwise (fun c₁ c₂ => c₁.tx.blockNumber ≤ c₂.tx.blockNumber)) :
    latestByBlock l = l.getLast? := by
  induction l using List.reverseRecOn with
  | nil => rfl
  | append_singleton l c ih =>
    have hp := List.pairwise_append.mp h
    rw [latestByBlock_append, ih hp.1, List.getLast?_append, List.getLast?_singleton]
    cases hl : l.getLast? with
    | none => rfl
    | some b =>
      have hb : b ∈ l := List.mem_of_getLast?_eq_some hl
      have := hp.2.2 b hb c (by simp)
      simp [this]

/-- With every sender's changes in block order, the change processed last among
those before a deposit is the latest by block height. -/
theorem timezoneInForce_eq_byBlockHeight (inits resets : List NodeTz) (d : Tx)
    (h : ChangesInBlockOrder resets) :
    timezoneInForce inits resets d = timezoneByBlockHeight inits resets d := by
  have hs : (changesBefore resets d).Pairwise
      (fun c₁ c₂ => c₁.tx.blockNumber ≤ c₂.tx.blockNumber) := by
    have h1 : (changesBefore resets d).Pairwise (fun c₁ c₂ => c₁.tx.from_ = c₂.tx.from_ →
        c₁.tx.blockNumber ≤ c₂.tx.blockNumber) :=
      List.Pairwise.sublist (List.filter_sublist _) h
    refine List.Pairwise.imp_of_mem ?_ h1
    intro a b ha hb hab
    have ha2 := (List.mem_filter.mp ha).2
    have hb2 := (List.mem_filter.mp hb).2
    simp only [decide_eq_true_eq] at ha2 hb2
    exact hab (ha2.1.trans hb2.1.symm)
  exact congrArg (fun o : Option NodeTz => match o with
    | some c => c.timezone
    | none => registeredTimezone inits d) (latestByBlock_eq_getLast? _ hs).symm

theorem ordered_ledger :
    compileData plainDecode twoChangesIdentity [depositTx "A" 250 2500, depositTx "A" 350 3500]
      = Except.ok
      [⟨"A", 250, 2500, "UTC+1", 1⟩, ⟨"A", 300, 3000, "UTC+2", 1⟩, ⟨"A", 300, 3000, "UTC+1", -1⟩,
       ⟨"A", 350, 3500, "UTC+2", 1⟩] := by rfl

/-- C4, amended: on a run that completes on input where every sender's timezone
changes stand in non-decreasing order of block height, the ledger is, up to order,
one row per deposit (the deposit's sender, block height and timestamp, weight `+1`,
and the timezone of the sender's latest change by block height strictly before the
deposit's block, else of the sender's first registration), and rows that stem from a
timezone change and a deposit not above it, at the change's block and time. -/
theorem compileData_own_rows (decode : Tx → Option String)
    (node_tz node_deposits : List Tx) (ledger : List Entry)
    (h : compileData decode node_tz node_deposits = Except.ok ledger)
    (hord : ChangesInBlockOrder (identityEvents "setTimezone" decode node_tz)) :
    ∃ migs : List Entry,
      ledger.Perm (node_deposits.map
        (ownEntryByBlock (identityEvents "registerNode" decode node_tz)
          (identityEvents "setTimezone" decode node_tz)) ++ migs) ∧
      ∀ m ∈ migs, ∃ c ∈ identityEvents "setTimezone" decode node_tz, ∃ d ∈ node_deposits,
        c.tx.from_ = d.from_ ∧ d.blockNumber ≤ c.tx.blockNumber ∧ m.node = d.from_ ∧
        m.block = c.tx.blockNumber ∧ m.timeStamp = c.tx.timeStamp := by
  obtain ⟨migs, hl, hp⟩ := compileData_ok_form decode node_tz node_deposits ledger h
  have he : ownEntry (identityEvents "registerNode" decode node_tz)
        (identityEvents "setTimezone" decode node_tz) =
      ownEntryByBlock (identityEvents "registerNode" decode node_tz)
        (identityEvents "setTimezone" decode node_tz) := by
    funext d
    unfold ownEntry ownEntryByBlock
    rw [timezoneInForce_eq_byBlockHeight _ _ d hord]
  refine ⟨migs.flatten, by rw [hl, he]; exact V8.sort_perm _ _, ?_⟩
  intro m hm
  obtain ⟨p, hp1, hp2⟩ := migrationPairs_mem hp m hm
  obtain ⟨a, b, c, d⟩ := mem_affectedPairs hp1
  exact ⟨p.1, a, p.2, b, c, d, hp2⟩

theorem compileData_own_rows_witness :
    ChangesInBlockOrder (identityEvents "setTimezone" plainDecode twoChangesIdentity) ∧
    ∃ migs : List Entry,
      ([⟨"A", 250, 2500, "UTC+1", 1⟩, ⟨"A", 300, 3000, "UTC+2", 1⟩,
        ⟨"A", 300, 3000, "UTC+1", -1⟩, ⟨"A", 350, 3500, "UTC+2", 1⟩] : List Entry).Perm
        ([depositTx "A" 250 2500, depositTx "A" 350 3500].map
          (ownEntryByBlock (identityEvents "registerNode" plainDecode twoChangesIdentity)
            (identityEvents "setTimezone" plainDecode twoChangesIdentity)) ++ migs) ∧
      ∀ m ∈ migs, ∃ c ∈ identityEvents "setTimezone" plainDecode twoChangesIdentity,
        ∃ d ∈ [depositTx "A" 250 2500, depositTx "A" 350 3500],
        c.tx.from_ = d.from_ ∧ d.blockNumber ≤ c.tx.blockNumber ∧ m.node = d.from_ ∧
        m.block = c.tx.blockNumber ∧ m.timeStamp = c.tx.timeStamp :=
  ⟨by unfold ChangesInBlockOrder; decide,
   compileData_own_rows plainDecode twoChangesIdentity
    [depositTx "A" 250 2500, depositTx "A" 350 3500] _ ordered_ledger
    (by unfold ChangesInBlockOrder; decide)⟩

/-- C5: on a run that completes the ledger is, up to order, one row of weight `+1`
per deposit and, for every pair of a timezone change and a deposit of the same
sender with a block height not above the change's, exactly two rows with the
deposit's sender and the change's block height and timestamp: a removal of weight
`-1` and an addition of weight `+1` with the change's new timezone; other pairs give
no row. So the ledger has as many rows as deposits plus twice those pairs, and its
weights add up to the number of deposits. -/
theorem compileData_migration_pairs (decode : Tx → Option String)
    (node_tz node_deposits : List Tx) (ledger : List Entry)
    (h : compileData decode node_tz node_deposits = Except.ok ledger) :
    ∃ (own : List Entry) (migs : List (List Entry)),
      ledger.Perm (own ++ migs.flatten) ∧
      own.length = node_deposits.length ∧ (∀ e ∈ own, e.accumulator = 1) ∧
      List.Forall₂ IsMigrationPair
        (affectedPairs (identityEvents "setTimezone" decode node_tz) node_deposits) migs ∧
      ledger.length = node_deposits.length +
        2 * (affectedPairs (identityEvents "setTimezone" decode node_tz) node_deposits).length ∧
      (ledger.map (fun e => e.accumulator)).sum = (node_deposits.length : Int) := by
  obtain ⟨migs, hl, hp⟩ := compileData_ok_form decode node_tz node_deposits ledger h
  have hperm : ledger.Perm (node_deposits.map
      (ownEntry (identityEvents "registerNode" decode node_tz)
        (identityEvents "setTimezone" decode node_tz)) ++ migs.flatten) := by
    rw [hl]; exact V8.sort_perm _ _
  refine ⟨_, migs, hperm, by simp, ?_, hp, ?_, ?_⟩
  · intro e he
    obtain ⟨d, _, rfl⟩ := List.mem_map.mp he
    rfl
  · rw [hperm.length_eq, List.length_append, migrationPairs_length hp, List.length_map]
  · rw [(hperm.map (fun e => e.accumulator)).sum_eq, List.map_append, List.sum_append,
      migrationPairs_sum hp, add_zero, List.map_map]
    have : ∀ l : List Tx, (List.map ((fun e => e.accumulator) ∘
        ownEntry (identityEvents "registerNode" decode node_tz)
          (identityEvents "setTimezone" decode node_tz)) l).sum = (l.length : Int) := by
      intro l
      induction l with
      | nil => simp
      | cons d l ih =>
        simp only [List.map_cons, List.sum_cons, ih, List.length_cons, Function.comp, ownEntry]
        push_cast
        omega
    exact this node_deposits

theorem compileData_migration_pairs_witness :
    ∃ (own : List Entry) (migs : List (List Entry)),
      ([⟨"A", 150, 1500, "UTC", 1⟩, ⟨"A", 200, 2000, "UTC+2", 1⟩, ⟨"A", 200, 2000, "UTC", -1⟩,
        ⟨"A", 250, 2500, "UTC+2", 1⟩] : List Entry).Perm (own ++ migs.flatten) ∧
      own.length = scenarioDeposits.length ∧ (∀ e ∈ own, e.accumulator = 1) ∧
      List.Forall₂ IsMigrationPair
        (affectedPairs (identityEvents "setTimezone" plainDecode scenarioIdentity)
          scenarioDeposits) migs ∧
      ([⟨"A", 150, 1500, "UTC", 1⟩, ⟨"A", 200, 2000, "UTC+2", 1⟩, ⟨"A", 200, 2000, "UTC", -1⟩,
        ⟨"A", 250, 2500, "UTC+2", 1⟩] : List Entry).length = scenarioDeposits.length +
        2 * (affectedPairs (identityEvents "setTimezone" plainDecode scenarioIdentity)
          scenarioDeposits).length ∧
      (([⟨"A", 150, 1500, "UTC", 1⟩, ⟨"A", 200, 2000, "UTC+2", 1⟩,
        ⟨"A", 200, 2000, "UTC", -1⟩, ⟨"A", 250, 2500, "UTC+2", 1⟩] : List Entry).map
          (fun e => e.accumulator)).sum = (scenarioDeposits.length : Int) :=
  compileData_migration_pairs plainDecode scenarioIdentity scenarioDeposits _ scenario_ledger

/-- C6 as stated fails: the rows of the scenario, as (node, block, timezone, weight),
do not come in the order removal before addition. -/
theorem scenario_not_insertion_order :
    (compileData plainDecode scenarioIdentity scenarioDeposits).map
      (List.map (fun e => (e.node, e.block, e.timezone, e.accumulator))) ≠ Except.ok
      [("A", 150, "UTC", 1), ("A", 200, "UTC", -1), ("A", 200, "UTC+2", 1),
       ("A", 250, "UTC+2", 1)] := by
  rw [scenario_ledger]
  intro h
  have h2 := Except.ok.inj h
  revert h2
  decide

/-- C6, amended: on the scenario `compileData` gives exactly four rows, ordered by
block height, as (node, block, timezone, weight): the first deposit with `"UTC"`,
the two rows of block 200 with the addition before the removal, and the second
deposit with `"UTC+2"`. -/
theorem scenario_ledger_order :
    (compileData plainDecode scenarioIdentity scenarioDeposits).map
      (List.map (fun e => (e.node, e.block, e.timezone, e.accumulator))) = Except.ok
      [("A", 150, "UTC", 1), ("A", 200, "UTC+2", 1), ("A", 200, "UTC", -1),
       ("A", 250, "UTC+2", 1)] := by
  rfl

/-- C9, at the failing input: the call data of the second identity transaction does
not decode; `compileData` ends in a `TypeError`, while without that transaction it
gives a ledger. -/
theorem decode_failure_aborts :
    compileData plainDecode
      [registerTx "A" "UTC" 100 1000, setTimezoneTx "A" "" 200 2000]
      [depositTx "A" 150 1500] = Except.error
        (JsError.typeError "Cannot read properties of undefined (reading 'functionName')") ∧
    compileData plainDecode [registerTx "A" "UTC" 100 1000] [depositTx "A" 150 1500]
      = Except.ok [⟨"A", 150, 1500, "UTC", 1⟩] :=
  ⟨by rfl, by rfl⟩

/-- C10, at the failing input: `B` deposits and has no registration; `compileData`
ends in a `TypeError` and gives no ledger. -/
theorem missing_registration_aborts :
    compileData plainDecode [registerTx "A" "UTC" 100 1000]
      [depositTx "A" 150 1500, depositTx "B" 160 1600] = Except.error
        (JsError.typeError "Cannot read properties of undefined (reading 'timezone')") := by
  rfl

/-- C7, at the failing input: 31 calls of `fetchUrl` one after another, each
answered `200 OK` within a second. No call waits (the fuel for waiting is 0), and
when the last has settled all 31 recorded timestamps lie in the trailing window of
60000 ms: one more than `maxCalls`. -/
theorem thirty_one_calls_in_window :
    ∃ s, fetchAll quietWorld 0 30 (List.replicate 31 "https://api.etherscan.io/api")
        { now := 1700000000000, calls := [], awaits := 0, requests := 0 } = some s ∧
      s.calls.length = 31 ∧ maxCalls < s.calls.length ∧
      ∀ t ∈ s.calls, s.now - windowMs < t := by
  obtain ⟨s, e1, e2, e3, e4⟩ := fetchAll_quiet 0 30 "https://api.etherscan.io/api"
    1700000000000 31 { now := 1700000000000, calls := [], awaits := 0, requests := 0 }
    (by simp) (by simp) (by simp [windowMs]) (by simp [maxCalls])
  refine ⟨s, e1, by simpa using e2, by rw [e2]; simp [maxCalls], ?_⟩
  intro t ht
  have := e4 t ht
  rw [e3]
  simp only [windowMs]
  push_cast
  omega

theorem isRetryStatus_iff (status : Nat) :
    isRetryStatus status = true ↔ status = 429 ∨ status = 503 := by
  simp [isRetryStatus]

/-- C8: with no failure of the transport among the answers `r0 .. rn` to the next
`n + 1` requests, and fuel for the six waits a call of `rateLimitCalls` can need,
`fetchUrl(url, n)` returns: the answer `rj` to its request number `j ≤ n`, after
exactly `j + 1` requests, where every answer before `rj` had status 429 or 503 and
`rj` has a status that is neither 429 nor 503, or is `rn`. -/
theorem fetchUrl_returns_first_final (w : World) (fuel : Nat) (url : String) (n : Nat)
    (s : FetchState) (hfuel : 6 ≤ fuel) (hs : ∀ t ∈ s.calls, t ≤ s.now)
    (hok : ∀ j ≤ n, ∃ r, w.respond url (s.requests + j) = Except.ok r) :
    ∃ (j : Nat) (r : Response) (s1 : FetchState), j ≤ n ∧
      fetchUrl w fuel url n s = some (Except.ok r, s1) ∧
      w.respond url (s.requests + j) = Except.ok r ∧
      s1.requests = s.requests + j + 1 ∧
      (∀ i < j, ∀ q, w.respond url (s.requests + i) = Except.ok q →
        q.status = 429 ∨ q.status = 503) ∧
      ((r.status ≠ 429 ∧ r.status ≠ 503) ∨ j = n) := by
  obtain ⟨j, r, s1, h1, h2, h3, h4, h5, h6, _⟩ := fetchUrl_spec w fuel url hfuel n s hs hok
  refine ⟨j, r, s1, h1, h2, h3, h4, ?_, ?_⟩
  · intro i hi q hq
    exact (isRetryStatus_iff q.status).mp (h5 i hi q hq)
  · rcases h6 with h6 | h6
    · left
      have hn : ¬ (r.status = 429 ∨ r.status = 503) := by
        intro hc
        rw [(isRetryStatus_iff r.status).mpr hc] at h6
        cases h6
      exact ⟨fun e => hn (Or.inl e), fun e => hn (Or.inr e)⟩
    · exact Or.inr h6

theorem fetchUrl_returns_first_final_witness :
    ∃ (j : Nat) (r : Response) (s1 : FetchState), j ≤ 30 ∧
      fetchUrl busyWorld 6 "u" 30 { now := 1000, calls := [], awaits := 0, requests := 0 }
        = some (Except.ok r, s1) ∧
      busyWorld.respond "u" (0 + j) = Except.ok r ∧
      s1.requests = 0 + j + 1 ∧
      (∀ i < j, ∀ q, busyWorld.respond "u" (0 + i) = Except.ok q →
        q.status = 429 ∨ q.status = 503) ∧
      ((r.status ≠ 429 ∧ r.status ≠ 503) ∨ j = 30) :=
  fetchUrl_returns_first_final busyWorld 6 "u" 30
    { now := 1000, calls := [], awaits := 0, requests := 0 } (by decide) (by simp)
    (by
      intro j _
      unfold busyWorld
      dsimp only
      split_ifs
      · exact ⟨_, rfl⟩
      · exact ⟨_, rfl⟩)

end RocketpoolMap
